import Mathlib

/-
  Verification of the E-AC-3 7.1 Atmos metadata patcher (src/main.py).

  The program is embedded shallowly: byte buffers are `List Nat` (each
  element a byte value `< 256` in every reachable state), bit offsets are
  `Nat` (or `Int` where Python's negative indexing matters), and the
  stream-processing loops are structural recursions.  Machine arithmetic
  follows the source: every masking step (`& 0xFFFF`, `& 0xFF`) is kept
  explicit.
-/


/-! ### Bit accessor (src/main.py `getbit`/`setbit`/`getbits`/`setbits`) -/

/-- `getbit(buf, bitoffset)`: MSB-first single-bit read; offsets whose byte
index falls at or beyond the buffer end read as 0. -/
def getbit (buf : List Nat) (bitoffset : Nat) : Nat :=
  if bitoffset / 8 ≥ buf.length then 0
  else if buf.getD (bitoffset / 8) 0 &&& (0x80 >>> (bitoffset % 8)) ≠ 0 then 1 else 0

/-- `setbit(buf, bit, bitoffset)`: MSB-first single-bit write; a no-op when
the byte index falls at or beyond the buffer end.  The source clears with
`(~mask) & 0xFF`, which for the single-byte masks used here equals
`0xFF ^^^ mask`. -/
def setbit (buf : List Nat) (bit : Nat) (bitoffset : Nat) : List Nat :=
  if bitoffset / 8 ≥ buf.length then buf
  else if bit ≠ 0 then
    buf.set (bitoffset / 8) (buf.getD (bitoffset / 8) 0 ||| (0x80 >>> (bitoffset % 8)))
  else
    buf.set (bitoffset / 8) (buf.getD (bitoffset / 8) 0 &&& (0xFF ^^^ (0x80 >>> (bitoffset % 8))))

/-- `getbits(buf, bitoffset, nbits)`: the source folds
`v = (v << 1) | getbit(buf, bitoffset + i)` for `i = 0 .. nbits-1`; since
`getbit` returns 0 or 1, `(v << 1) | b = v * 2 + b`.  The recursion below
peels the final loop iteration. -/
def getbits (buf : List Nat) (bitoffset : Nat) : Nat → Nat
  | 0 => 0
  | n + 1 => getbits buf bitoffset n * 2 + getbit buf (bitoffset + n)

/-- `setbits(buf, bitoffset, nbits, value)`: writes `value`'s bits MSB-first;
iteration `i` writes bit `(value >> (nbits-1-i)) & 1` at `bitoffset + i`.
The recursion below peels the first loop iteration (`1 <<< n = 2 ^ n`). -/
def setbits (buf : List Nat) (bitoffset : Nat) : Nat → Nat → List Nat
  | 0, _ => buf
  | n + 1, value =>
      setbits (setbit buf (if value &&& (1 <<< n) ≠ 0 then 1 else 0) bitoffset)
        (bitoffset + 1) n value

/-! #### Python-faithful `Int`-offset variants (negative `bitoffset`).

Python `//` and `%` are floor division and a remainder with the divisor's
sign; for the positive divisor 8 these coincide with Lean's `Int` `/`
(`Int.ediv`) and `%` (`Int.emod`).  Python indexing `buf[idx]` with
`-len ≤ idx < 0` addresses `buf[len + idx]`, and raises `IndexError`
(modeled as `none`) outside `[-len, len)`. -/

/-- Python list read `buf[i]`, with negative-index wrapping and `none` for
an out-of-range index. -/
def pyAt (buf : List Nat) (i : Int) : Option Nat :=
  if 0 ≤ i then
    if i.toNat < buf.length then some (buf.getD i.toNat 0) else none
  else
    if 0 ≤ (buf.length : Int) + i then some (buf.getD ((buf.length : Int) + i).toNat 0)
    else none

/-- Python list write `buf[i] = v` for an index already validated by a
preceding read. -/
def pySet (buf : List Nat) (i : Int) (v : Nat) : List Nat :=
  if 0 ≤ i then buf.set i.toNat v
  else buf.set ((buf.length : Int) + i).toNat v

/-- `getbit` over a Python `int` offset: the guard `idx >= len(buf)` only
catches large positive offsets, so a negative offset falls through to the
indexing, which wraps or raises. -/
def getbitI (buf : List Nat) (bitoffset : Int) : Option Nat :=
  if (buf.length : Int) ≤ bitoffset / 8 then some 0
  else
    (pyAt buf (bitoffset / 8)).map
      (fun byte => if byte &&& (0x80 >>> (bitoffset % 8).toNat) ≠ 0 then 1 else 0)

/-- `setbit` over a Python `int` offset. -/
def setbitI (buf : List Nat) (bit : Nat) (bitoffset : Int) : Option (List Nat) :=
  if (buf.length : Int) ≤ bitoffset / 8 then some buf
  else
    match pyAt buf (bitoffset / 8) with
    | none => none
    | some byte =>
        if bit ≠ 0 then
          some (pySet buf (bitoffset / 8) (byte ||| (0x80 >>> (bitoffset % 8).toNat)))
        else
          some (pySet buf (bitoffset / 8) (byte &&& (0xFF ^^^ (0x80 >>> (bitoffset % 8).toNat))))

/-! ### CRC16 engine (src/main.py `crc_init`/`crc16`/`eac3_rewrite_crc2_like_c`) -/

/-- One shift-and-conditional-xor round of the `crc_init` inner loop
(polynomial 0x8005, MSB-first, non-reflected, 16-bit masked). -/
def crcStep (c : Nat) : Nat :=
  if c &&& 0x8000 ≠ 0 then ((c <<< 1) &&& 0xFFFF) ^^^ 0x8005 else (c <<< 1) &&& 0xFFFF

/-- `k` rounds of `crcStep` (the source runs 8 per table entry). -/
def crcIter : Nat → Nat → Nat
  | 0, c => c
  | k + 1, c => crcIter k (crcStep c)

/-- One entry of the table built by `crc_init`. -/
def crcEntry (n : Nat) : Nat := crcIter 8 ((n <<< 8) &&& 0xFFFF)

/-- The 256-entry table `_crc_table` built once by `crc_init`. -/
def crcTable : List Nat := (List.range 256).map crcEntry

/-- `crc16(data, crc=0)`: folds each data byte through the table. -/
def crc16 (data : List Nat) (crc : Nat) : Nat :=
  data.foldl
    (fun crc b =>
      (crcTable.getD ((b ^^^ (crc >>> 8)) &&& 0xFF) 0 ^^^ ((crc <<< 8) &&& 0xFFFF)) &&& 0xFFFF)
    (crc &&& 0xFFFF)

/-- `eac3_rewrite_crc2_like_c(frame, frlen)`: recompute the CRC over
`frame[2 : frlen-2]` with seed 0 and store it big-endian in the final two
bytes; frames shorter than 6 bytes are left untouched. -/
def eac3_rewrite_crc2_like_c (frame : List Nat) (frlen : Nat) : List Nat :=
  if frlen < 6 then frame
  else
    let c := crc16 ((frame.drop 2).take (frlen - 2 - 2)) 0
    (frame.set (frlen - 2) ((c >>> 8) &&& 0xFF)).set (frlen - 1) (c &&& 0xFF)

/-! ### Frame reader (src/main.py `read_frame`, `fsizetable`) -/

/-- The static AC-3 frame-size table, verbatim from the source (note: it has
250 entries). -/
def fsizetable : List Nat := [
  64,64,80,80,96,96,112,112,128,128,160,160,192,192,224,224,256,256,320,320,384,384,448,448,512,512,640,640,768,768,896,896,
  1024,1024,1152,1152,1280,1280,0,0,0,0,0,0,0,0,0,0,0,0,0,0,0,0,0,0,0,0,0,0,0,0,0,0,
  69,70,87,88,104,105,121,122,139,140,174,175,208,209,243,244,278,279,348,349,417,418,487,488,557,558,696,697,835,836,975,976,
  1114,1115,1253,1254,1393,1394,0,0,0,0,0,0,0,0,0,0,0,0,0,0,0,0,0,0,0,0,0,0,0,0,0,0,
  96,96,120,120,144,144,168,168,192,192,240,240,288,288,336,336,384,384,480,480,576,576,672,672,768,768,960,960,1152,1152,1344,1344,
  1536,1536,1728,1728,1920,1920,0,0,0,0,0,0,0,0,0,0,0,0,0,0,0,0,0,0,0,0,0,0,0,0,0,0,
  0,0,0,0,0,0,0,0,0,0,0,0,0,0,0,0,0,0,0,0,0,0,0,0,0,0,0,0,0,0,0,0,
  0,0,0,0,0,0,0,0,0,0,0,0,0,0,0,0,0,0,0,0,0,0,0,0,0,0]

/-- Frame classification. -/
inductive Kind where
  | ac3 : Kind
  | eac3 : Kind
deriving DecidableEq

/-- The failure modes of the program: the `PatchError` messages raised by
`read_frame`/`patch_file`, plus `indexErr` modeling the Python `IndexError`
raised by `fsizetable[frmsizecod]` when `frmsizecod` is past the table end. -/
inductive Err where
  | shortHeader : Err
  | badSync : Err
  | indexErr : Err
  | invalidFrmsizecod : Err
  | invalidFrmsiz : Err
  | truncated : Err
  | detection : Err
deriving DecidableEq

/-- A demuxed frame: its bytes, the byte length reported by `read_frame`
(always `fr.length`), and its classification. -/
structure Fr where
  fr : List Nat
  frlen : Nat
  kind : Kind
deriving DecidableEq

/-- Read the byte range `[0, frameLen)` of `s` as one frame; a stream
shorter than the declared length is a truncation error (in the source:
`len(tail) != frame_len - 6`). -/
def finishRead (s : List Nat) (frameLen : Nat) (kind : Kind) :
    Except Err (Option (Fr × List Nat)) :=
  if s.length < frameLen then .error .truncated
  else .ok (some (⟨s.take frameLen, frameLen, kind⟩, s.drop frameLen))

/-- `read_frame(fin)`: reads a 6-byte header (empty stream ⇒ end of stream,
modeled `ok none`; short ⇒ error), validates the sync word, classifies by
`bsid = fr[5] >> 3`, computes the frame byte length (AC-3: table lookup on
`fr[4]`, where an index past the 250-entry table raises `indexErr`; E-AC-3:
arithmetic on bytes 2-3), and consumes the whole frame. -/
def readFrame (s : List Nat) : Except Err (Option (Fr × List Nat)) :=
  if s.length = 0 then .ok none
  else if s.length < 6 then .error .shortHeader
  else if s.getD 0 0 ≠ 0x0B ∨ s.getD 1 0 ≠ 0x77 then .error .badSync
  else if s.getD 5 0 >>> 3 < 10 then
    match fsizetable.get? (s.getD 4 0) with
    | none => .error .indexErr
    | some e =>
        if e * 2 = 0 then .error .invalidFrmsizecod
        else finishRead s (e * 2) .ac3
  else
    if (256 * (s.getD 2 0 &&& 7) + s.getD 3 0) * 2 + 2 < 10 then .error .invalidFrmsiz
    else finishRead s ((256 * (s.getD 2 0 &&& 7) + s.getD 3 0) * 2 + 2) .eac3

/-! ### Header field locator (src/main.py `eac3_parse_positions`) -/

/-- The positions dictionary returned by `eac3_parse_positions`. -/
structure PosInfo where
  strmtype : Nat
  dialnorm_pos : Nat
  compre_pos : Nat
  compr_pos : Nat
  scan_start : Nat
deriving DecidableEq

/-- `eac3_parse_positions(fr)`: walks the fixed-width E-AC-3 bitstream-info
prefix starting at bit 16 (strmtyp 2, then 3+11+2+2+3+1+5 skipped bits,
dialnorm 5, compre 1, and conditionally compr 8), recording the positions
used downstream and `scan_start`, the first bit after the decoded prefix. -/
def eac3_parse_positions (fr : List Nat) : PosInfo :=
  let off := 16
  let strmtype := getbits fr off 2
  let off := off + 2
  let off := off + 3
  let off := off + 11
  let off := off + 2
  let off := off + 2
  let off := off + 3
  let off := off + 1
  let off := off + 5
  let dialnorm_pos := off
  let off := off + 5
  let compre_pos := off
  let compre := getbits fr off 1
  let off := off + 1
  let compr_pos := off
  let off := if compre = 1 then off + 8 else off
  ⟨strmtype, dialnorm_pos, compre_pos, compr_pos, off⟩

/-! ### Chanmap position detector (src/main.py `find_chanmap_bitpos`) -/

/-- One per-position histogram: insertion-ordered association list from a
16-bit value to its occurrence count (a Python `dict`, whose iteration
order is insertion order). -/
abbrev Hist := List (Nat × Nat)

/-- `pos_hist`: insertion-ordered association list from a bit position to
its histogram. -/
abbrev PosHist := List (Nat × Hist)

/-- `d[v] = d.get(v, 0) + 1` on an insertion-ordered dict. -/
def histAdd (h : Hist) (v : Nat) : Hist :=
  match h with
  | [] => [(v, 1)]
  | (w, c) :: rest => if w = v then (w, c + 1) :: rest else (w, c) :: histAdd rest v

/-- `pos_hist.setdefault(key, {})` followed by the count bump: an existing
key is updated in place, a new key is appended at the end. -/
def posHistAdd (ph : PosHist) (key v : Nat) : PosHist :=
  match ph with
  | [] => [(key, [(v, 1)])]
  | (k, h) :: rest =>
      if k = key then (k, histAdd h v) :: rest else (k, h) :: posHistAdd rest key v

/-- The candidate offsets examined for one frame:
`range(start, min(len(fr)*8 - 17, start + extra_bits))`. -/
def scan_range (fr : List Nat) (extra_bits : Nat) : List Nat :=
  List.range' (eac3_parse_positions fr).scan_start
    (min (fr.length * 8 - 17) ((eac3_parse_positions fr).scan_start + extra_bits)
      - (eac3_parse_positions fr).scan_start)

/-- The body of the per-offset loop: skip when the presence bit at `p` is
not set or the 16 bits after it are a sentinel (0x0000/0xFFFF); otherwise
record the value under key `p + 1`. -/
def scanStep (fr : List Nat) (ph : PosHist) (p : Nat) : PosHist :=
  if getbit fr p ≠ 1 then ph
  else if getbits fr (p + 1) 16 = 0x0000 ∨ getbits fr (p + 1) 16 = 0xFFFF then ph
  else posHistAdd ph (p + 1) (getbits fr (p + 1) 16)

/-- The per-frame loop: skip frames with `bsid < 10` or a stream type other
than 1, then fold `scanStep` over the scan window. -/
def scanFrame (extra_bits : Nat) (ph : PosHist) (fr : List Nat) : PosHist :=
  if fr.getD 5 0 >>> 3 < 10 then ph
  else if (eac3_parse_positions fr).strmtype ≠ 1 then ph
  else (scan_range fr extra_bits).foldl (scanStep fr) ph

/-- The full `pos_hist` accumulated over all sample frames. -/
def posHist (samples : List (List Nat)) (extra_bits : Nat) : PosHist :=
  samples.foldl (scanFrame extra_bits) []

/-- `total = sum(hist.values())`. -/
def sumCounts (h : Hist) : Nat := (h.map Prod.snd).sum

/-- `top = max(hist.values())`: every histogram in `pos_hist` is nonempty
with positive counts, where the fold with seed 0 equals Python's `max`. -/
def maxCount (h : Hist) : Nat := (h.map Prod.snd).foldl max 0

/-- The selection score of one histogram.  The source computes
`stability = top/total` and `score = total * stability**2` in IEEE doubles;
in exact arithmetic `score = top^2 / total`, represented here as an exact
fraction (numerator, positive denominator).  For every reachable histogram
(at most 8 samples, so `top ≤ total ≤ 8`) double comparison and exact
comparison agree.  The `total = 0` guard mirrors the source's
`top / total if total else 0.0`. -/
def score (h : Hist) : Int × Nat :=
  if sumCounts h = 0 then (0, 1)
  else ((maxCount h : Int) * (maxCount h : Int), sumCounts h)

/-- Strict fraction order (denominators positive): `a < b`. -/
abbrev scoreLt (a b : Int × Nat) : Prop := a.1 * (b.2 : Int) < b.1 * (a.2 : Int)

/-- One iteration of the selection loop: the running best is replaced
exactly when `score > best_score`. -/
def bestStep (best : Option Nat × (Int × Nat)) (e : Nat × Hist) :
    Option Nat × (Int × Nat) :=
  if scoreLt best.2 (score e.2) then (some e.1, score e.2) else best

/-- The selection loop over `pos_hist.items()` (insertion order), starting
from `(None, -1.0)`. -/
def bestPos (ph : PosHist) : Option Nat :=
  (ph.foldl bestStep ((none : Option Nat), ((-1 : Int), (1 : Nat)))).1

/-- `find_chanmap_bitpos(samples, extra_bits=2048)`: `None` when the
histogram is empty, otherwise the best-scoring position. -/
def find_chanmap_bitpos (samples : List (List Nat)) (extra_bits : Nat) : Option Nat :=
  if posHist samples extra_bits = [] then none
  else bestPos (posHist samples extra_bits)

/-! ### Concrete frames used by the claim analyses -/

/-- A valid 266-byte dependent E-AC-3 frame (all-zero payload): its frame
bit length is 2128, so the claimed window `[51, 2111)` is longer than the
2048-bit cap. -/
def frameC3 : List Nat := [0x0B, 0x77, 0x40, 132, 0x00, 0x50] ++ List.replicate 260 0

/-- Qualification of a candidate offset `p` within frame `fr`. -/
def Qualifies (fr : List Nat) (p : Nat) : Prop :=
  getbit fr p = 1 ∧ getbits fr (p + 1) 16 ≠ 0x0000 ∧ getbits fr (p + 1) 16 ≠ 0xFFFF

/-- A 16-byte dependent E-AC-3 frame whose first qualifying candidate is
`p = 51` (presence bit), so the detector returns 52, the start of the
16-bit value. -/
def frameI5 : List Nat :=
  [0x0B, 0x77, 0x40, 0x07, 0x00, 0x50, 0x10, 0x01, 0x00, 0x80, 0x02, 0x00, 0x00, 0x00, 0x00, 0x00]

/-- A 16-byte dependent frame with `compre = 1` (`scan_start = 59`) whose
only qualifying candidate is `p = 59`, recorded under key 60. -/
def frameA : List Nat :=
  [0x0B, 0x77, 0x40, 0x07, 0x00, 0x50, 0x20, 0x10, 0x00, 0x10, 0x00, 0x00, 0x00, 0x00, 0x00, 0x00]

/-- A 16-byte dependent frame with `compre = 0` (`scan_start = 51`) whose
only qualifying candidate is `p = 51`, recorded under key 52. -/
def frameB : List Nat :=
  [0x0B, 0x77, 0x40, 0x07, 0x00, 0x50, 0x10, 0x00, 0x10, 0x00, 0x00, 0x00, 0x00, 0x00, 0x00, 0x00]

/-! ### Patch engine (src/main.py `patch_file`) -/

/-- Fixed default chanmap written into dependent substreams (no CLI option). -/
def DEFAULT_CHANMAP : Nat := 0x1A00

/-- The summary counters accumulated by `patch_file`, together with the
detected chanmap bit position it reports. -/
structure Stats where
  total : Nat
  ac3 : Nat
  eac3 : Nat
  patched : Nat
  chanmap_pos : Nat
deriving DecidableEq

/-- The per-frame body of the patch loop: AC-3 frames pass through
byte-identical; E-AC-3 frames get `compre := 1`, `compr := 0xFF`
unconditionally, the 16 chanmap bits at the detected position when
`strmtype = 1`, and a CRC repair (`changed` is always true for E-AC-3). -/
def patchFrame (chanmap_pos : Nat) (f : Fr) : List Nat :=
  match f.kind with
  | .ac3 => f.fr
  | .eac3 =>
      let info := eac3_parse_positions f.fr
      let fr1 := setbits f.fr info.compre_pos 1 1
      let fr2 := setbits fr1 info.compr_pos 8 0xFF
      let fr3 := if info.strmtype = 1 then setbits fr2 chanmap_pos 16 DEFAULT_CHANMAP else fr2
      eac3_rewrite_crc2_like_c fr3 f.frlen

/-- The counters accumulated over a frame list (the loop increments
`total` for every frame, `ac3`/`eac3` by kind, and `patched` for every
E-AC-3 frame, since `changed` is unconditionally true there). -/
def statsOf (chanmap_pos : Nat) : List Fr → Stats
  | [] => ⟨0, 0, 0, 0, chanmap_pos⟩
  | f :: frs =>
      let st := statsOf chanmap_pos frs
      match f.kind with
      | .ac3 => { st with total := st.total + 1, ac3 := st.ac3 + 1 }
      | .eac3 => { st with total := st.total + 1, eac3 := st.eac3 + 1, patched := st.patched + 1 }

/-- `read_frame` driven to end of stream, fueled (each successful read
consumes at least 10 bytes, so `fuel = s.length` always suffices and the
fuel-exhausted branch is unreachable from the wrapper below). -/
def parseFramesF : Nat → List Nat → Except Err (List Fr)
  | 0, s =>
      (match readFrame s with
      | .error e => .error e
      | .ok none => .ok []
      | .ok (some _) => .error .shortHeader)
  | fuel + 1, s =>
      (match readFrame s with
      | .error e => .error e
      | .ok none => .ok []
      | .ok (some (f, rest)) =>
          match parseFramesF fuel rest with
          | .error e => .error e
          | .ok frs => .ok (f :: frs))

/-- The frame sequence of a stream. -/
def parseFrames (s : List Nat) : Except Err (List Fr) := parseFramesF s.length s

/-- The patch pass: the source reads frames one at a time, patches each,
writes it immediately, and accumulates counters; the result modeled here
is the concatenated output plus the final counters, with a read error
aborting the pass (partial output written before an abort is not modeled —
the run guarantees nothing about it). -/
def patchPass (chanmap_pos : Nat) (s : List Nat) : Except Err (List Nat × Stats) :=
  match parseFrames s with
  | .error e => .error e
  | .ok frs => .ok ((frs.map (patchFrame chanmap_pos)).flatten, statsOf chanmap_pos frs)

/-- The discovery loop: read frames from the start, collecting the bytes
of E-AC-3 frames with `strmtype = 1`, stopping at 8 samples or end of
stream (fueled like `parseFramesF`). -/
def collectSamplesF : Nat → List Nat → List (List Nat) → Except Err (List (List Nat))
  | 0, s, acc =>
      if 8 ≤ acc.length then .ok acc
      else
        (match readFrame s with
        | .error e => .error e
        | .ok none => .ok acc
        | .ok (some _) => .error .shortHeader)
  | fuel + 1, s, acc =>
      if 8 ≤ acc.length then .ok acc
      else
        (match readFrame s with
        | .error e => .error e
        | .ok none => .ok acc
        | .ok (some (f, rest)) =>
            collectSamplesF fuel rest
              (if f.kind = .eac3 ∧ (eac3_parse_positions f.fr).strmtype = 1
               then acc ++ [f.fr] else acc))

def collectSamples (s : List Nat) : Except Err (List (List Nat)) :=
  collectSamplesF s.length s []

/-- `patch_file`: discovery pass, chanmap detection (`PatchError` when it
fails, before any output exists), then the patch pass over the input from
the start. -/
def patch_file (s : List Nat) : Except Err (List Nat × Stats) :=
  match collectSamples s with
  | .error e => .error e
  | .ok samples =>
      match find_chanmap_bitpos samples 2048 with
      | none => .error .detection
      | some pos => patchPass pos s

/-- Well-formedness of a frame produced by `readFrame`: its byte buffer
matches the reported length, carries a valid sync word, and its header
determines its kind and length exactly as `read_frame` computed them. -/
def FrWF (f : Fr) : Prop :=
  f.fr.length = f.frlen ∧ 10 ≤ f.frlen ∧
  f.fr.getD 0 0 = 0x0B ∧ f.fr.getD 1 0 = 0x77 ∧
  (f.kind = .ac3 →
    f.fr.getD 5 0 >>> 3 < 10 ∧
    ∃ e, fsizetable.get? (f.fr.getD 4 0) = some e ∧ f.frlen = e * 2 ∧ ¬ e * 2 = 0) ∧
  (f.kind = .eac3 →
    ¬ f.fr.getD 5 0 >>> 3 < 10 ∧
    f.frlen = (256 * (f.fr.getD 2 0 &&& 7) + f.fr.getD 3 0) * 2 + 2)

deriving instance DecidableEq for Except

/-- The first run's output on the single-frame input `frameI5`. -/
def outI5 : List Nat :=
  [0x0B, 0x77, 0x40, 0x07, 0x00, 0x50, 0x31, 0xA0, 0x00, 0x80, 0x02, 0x00, 0x00, 0x00, 0xA5, 0x89]

/-- The second run's output on `outI5`: the detector now sees `compre = 1`
(`scan_start = 59`, past the first run's chanmap position 52) and picks
offset 73 instead, so the chanmap constant lands at different bits. -/
def outI5' : List Nat :=
  [0x0B, 0x77, 0x40, 0x07, 0x00, 0x50, 0x3F, 0xE0, 0x00, 0x8D, 0x00, 0x00, 0x00, 0x00, 0xAB, 0xF6]

/-! #### Helper lemmas about single bits -/

theorem shift_mask {r : Nat} (h : r < 8) : 128 >>> r = 2 ^ (7 - r) := by
  interval_cases r <;> rfl

theorem and_two_pow_eq (x j : Nat) :
    x &&& 2 ^ j = if x.testBit j then 2 ^ j else 0 := by
  by_cases hb : x.testBit j
  · simp only [hb, if_true]
    apply Nat.eq_of_testBit_eq
    intro i
    simp only [Nat.testBit_land, Nat.testBit_two_pow]
    by_cases hji : j = i
    · subst hji; simp [hb]
    · simp [hji]
  · simp only [hb, if_false]
    apply Nat.eq_of_testBit_eq
    intro i
    simp only [Nat.testBit_land, Nat.testBit_two_pow, Nat.zero_testBit]
    by_cases hji : j = i
    · subst hji; simp [hb]
    · simp [hji]

theorem and_two_pow_ne_zero (x j : Nat) :
    (x &&& 2 ^ j ≠ 0) ↔ x.testBit j = true := by
  rw [and_two_pow_eq]
  by_cases hb : x.testBit j
  · simp only [hb, if_true, iff_true]
    exact pow_ne_zero j two_ne_zero
  · simp [hb]

theorem ff_testBit {j : Nat} (h : j < 8) : Nat.testBit 255 j = true := by
  interval_cases j <;> rfl

theorem getD_set_ne {l : List Nat} {i j : Nat} (h : i ≠ j) (a d : Nat) :
    (l.set i a).getD j d = l.getD j d := by
  simp [List.getD_eq_getElem?_getD, List.getElem?_set_ne h]

theorem getD_set_self {l : List Nat} {i : Nat} (h : i < l.length) (a d : Nat) :
    (l.set i a).getD i d = a := by
  simp [List.getD_eq_getElem?_getD, List.getElem?_set_self', List.getElem?_eq_getElem h]

theorem getbit_lt_iff (buf : List Nat) (b : Nat) :
    b / 8 < buf.length ↔ b < 8 * buf.length := by
  omega

theorem getbit_oob {buf : List Nat} {b : Nat} (h : buf.length ≤ b / 8) :
    getbit buf b = 0 := by
  unfold getbit
  rw [if_pos h]

theorem setbit_oob {buf : List Nat} {bit b : Nat} (h : buf.length ≤ b / 8) :
    setbit buf bit b = buf := by
  unfold setbit
  rw [if_pos h]

theorem setbit_length (buf : List Nat) (bit b : Nat) :
    (setbit buf bit b).length = buf.length := by
  unfold setbit
  split
  · rfl
  · split <;> simp [List.length_set]

theorem getbit_eq_testBit {buf : List Nat} {b : Nat} (h : b / 8 < buf.length) :
    getbit buf b = if (buf.getD (b / 8) 0).testBit (7 - b % 8) then 1 else 0 := by
  unfold getbit
  rw [if_neg (by omega)]
  rw [show (0x80 : Nat) = 128 from rfl, shift_mask (Nat.mod_lt _ (by norm_num))]
  by_cases hb : (buf.getD (b / 8) 0).testBit (7 - b % 8)
  · rw [if_pos ((and_two_pow_ne_zero _ _).mpr hb), if_pos hb]
  · rw [if_neg (by simpa [and_two_pow_ne_zero] using hb), if_neg hb]

theorem getbit_congr {buf₁ buf₂ : List Nat} {b : Nat}
    (hlen : buf₁.length = buf₂.length)
    (hbyte : buf₁.getD (b / 8) 0 = buf₂.getD (b / 8) 0) :
    getbit buf₁ b = getbit buf₂ b := by
  unfold getbit
  rw [hlen, hbyte]

theorem getD_setbit_ne_byte {buf : List Nat} {bit b : Nat} {j : Nat}
    (h : j ≠ b / 8) (d : Nat) : (setbit buf bit b).getD j d = buf.getD j d := by
  unfold setbit
  split
  · rfl
  · split <;> exact getD_set_ne (fun he => h he.symm) _ _

theorem getbit_setbit_ne {buf : List Nat} {bit p q : Nat} (h : p ≠ q) :
    getbit (setbit buf bit q) p = getbit buf p := by
  by_cases hq : buf.length ≤ q / 8
  · rw [setbit_oob hq]
  push_neg at hq
  by_cases hidx : p / 8 = q / 8
  · have hp : p / 8 < buf.length := by rw [hidx]; exact hq
    have hmod : p % 8 ≠ q % 8 := by omega
    have hbitne : ¬ (7 - q % 8 = 7 - p % 8) := by omega
    have h8q : q % 8 < 8 := Nat.mod_lt _ (by norm_num)
    have h8p : p % 8 < 8 := Nat.mod_lt _ (by norm_num)
    by_cases hbit : bit ≠ 0
    · have hset : setbit buf bit q =
          buf.set (q / 8) (buf.getD (q / 8) 0 ||| 2 ^ (7 - q % 8)) := by
        unfold setbit
        rw [if_neg (by omega), if_pos hbit, shift_mask h8q]
      rw [hset, getbit_eq_testBit (show p / 8 < _ by rw [List.length_set]; exact hp),
        getbit_eq_testBit hp]
      rw [show (buf.set (q / 8) (buf.getD (q / 8) 0 ||| 2 ^ (7 - q % 8))).getD (p / 8) 0 =
          buf.getD (q / 8) 0 ||| 2 ^ (7 - q % 8) from by rw [hidx]; exact getD_set_self hq .. ]
      rw [hidx]
      simp [Nat.testBit_lor, Nat.testBit_two_pow, hbitne]
    · have hset : setbit buf bit q =
          buf.set (q / 8) (buf.getD (q / 8) 0 &&& (0xFF ^^^ 2 ^ (7 - q % 8))) := by
        unfold setbit
        rw [if_neg (by omega), if_neg hbit, shift_mask h8q]
      rw [hset, getbit_eq_testBit (show p / 8 < _ by rw [List.length_set]; exact hp),
        getbit_eq_testBit hp]
      rw [show (buf.set (q / 8) (buf.getD (q / 8) 0 &&& (0xFF ^^^ 2 ^ (7 - q % 8)))).getD (p / 8) 0 =
          buf.getD (q / 8) 0 &&& (0xFF ^^^ 2 ^ (7 - q % 8)) from by rw [hidx]; exact getD_set_self hq .. ]
      rw [hidx]
      simp [Nat.testBit_land, Nat.testBit_xor, Nat.testBit_two_pow, hbitne,
        ff_testBit (show 7 - p % 8 < 8 by omega)]
  · by_cases hp : buf.length ≤ p / 8
    · rw [getbit_oob (by rw [setbit_length]; exact hp), getbit_oob hp]
    · push_neg at hp
      exact getbit_congr (setbit_length ..) (getD_setbit_ne_byte hidx 0)

theorem getbit_setbit_self {buf : List Nat} {bit q : Nat} (h : q / 8 < buf.length) :
    getbit (setbit buf bit q) q = if bit ≠ 0 then 1 else 0 := by
  have h8q : q % 8 < 8 := Nat.mod_lt _ (by norm_num)
  unfold setbit
  rw [if_neg (by omega), show (0x80 : Nat) = 128 from rfl, shift_mask h8q]
  split
  · rw [getbit_eq_testBit (by rw [List.length_set]; exact h)]
    rw [getD_set_self h]
    simp [Nat.testBit_lor, Nat.testBit_two_pow]
  · rw [getbit_eq_testBit (by rw [List.length_set]; exact h)]
    rw [getD_set_self h]
    simp only [Nat.testBit_land, Nat.testBit_xor, Nat.testBit_two_pow,
      ff_testBit (show 7 - q % 8 < 8 by omega)]
    simp

theorem setbits_length (buf : List Nat) (off : Nat) :
    ∀ n v, (setbits buf off n v).length = buf.length := by
  intro n
  induction n generalizing buf off with
  | zero => intro v; rfl
  | succ n ih =>
      intro v
      show (setbits (setbit buf _ off) (off + 1) n v).length = buf.length
      rw [ih, setbit_length]

theorem getbit_setbits_outside {off n v b : Nat} (h : b < off ∨ off + n ≤ b) :
    ∀ buf, getbit (setbits buf off n v) b = getbit buf b := by
  induction n generalizing off with
  | zero => intro buf; rfl
  | succ n ih =>
      intro buf
      show getbit (setbits (setbit buf _ off) (off + 1) n v) b = getbit buf b
      rw [ih (by omega), getbit_setbit_ne (by omega)]

theorem getbits_succ_front (buf : List Nat) :
    ∀ (n off : Nat), getbits buf off (n + 1) =
      getbit buf off * 2 ^ n + getbits buf (off + 1) n := by
  intro n
  induction n with
  | zero => intro off; simp [getbits]
  | succ n ih =>
      intro off
      have lhs : getbits buf off (n + 2) =
          getbits buf off (n + 1) * 2 + getbit buf (off + (n + 1)) := rfl
      have rhs : getbits buf (off + 1) (n + 1) =
          getbits buf (off + 1) n * 2 + getbit buf (off + 1 + n) := rfl
      rw [lhs, ih off, rhs, show off + (n + 1) = off + 1 + n from by omega]
      ring

theorem setbits_getbits_roundtrip :
    ∀ (n : Nat) (buf : List Nat) (off v : Nat), off + n ≤ 8 * buf.length →
      getbits (setbits buf off n v) off n = v % 2 ^ n := by
  intro n
  induction n with
  | zero => intro buf off v _; simp [getbits, setbits, Nat.mod_one]
  | succ n ih =>
      intro buf off v hbound
      set b0 : Nat := if v &&& (1 <<< n) ≠ 0 then 1 else 0 with hb0
      show getbits (setbits (setbit buf b0 off) (off + 1) n v) off (n + 1) = v % 2 ^ (n + 1)
      rw [getbits_succ_front]
      have hoff : off / 8 < buf.length := by
        rw [getbit_lt_iff]; omega
      have h1 : getbit (setbits (setbit buf b0 off) (off + 1) n v) off =
          getbit (setbit buf b0 off) off := getbit_setbits_outside (by omega) _
      have h2 : getbit (setbit buf b0 off) off = b0 := by
        rw [getbit_setbit_self hoff]
        have hcase : b0 = 0 ∨ b0 = 1 := by
          rw [hb0]; split <;> simp
        rcases hcase with hc | hc <;> simp [hc]
      have h3 : getbits (setbits (setbit buf b0 off) (off + 1) n v) (off + 1) n =
          v % 2 ^ n := by
        apply ih
        rw [setbit_length]
        omega
      rw [h1, h2, h3]
      -- arithmetic: bit n of v times 2^n plus v mod 2^n equals v mod 2^(n+1)
      have hmod : v % 2 ^ (n + 1) = v % 2 ^ n + 2 ^ n * (v / 2 ^ n % 2) := by
        rw [pow_succ]
        exact Nat.mod_mul
      have hbit : b0 = v / 2 ^ n % 2 := by
        rw [hb0, Nat.one_shiftLeft]
        by_cases hv : v.testBit n = true
        · have hd : v / 2 ^ n % 2 = 1 := by
            have ht : v.testBit n = decide (v / 2 ^ n % 2 = 1) := Nat.testBit_to_div_mod
            rw [hv] at ht
            exact of_decide_eq_true ht.symm
          rw [hd]
          simp [and_two_pow_ne_zero, hv]
        · have hd : v / 2 ^ n % 2 ≠ 1 := by
            intro hc
            apply hv
            rw [Nat.testBit_to_div_mod]
            exact decide_eq_true hc
          have hd0 : v / 2 ^ n % 2 = 0 := by omega
          rw [hd0]
          simp [and_two_pow_ne_zero, hv]
      rw [hbit, hmod]
      ring

/-! ### Claim C9 — set/get roundtrip and permissive out-of-range access -/

/-- C9: for every buffer, in-bounds bit offset and width `1 ≤ n ≤ 16` with
`offset + n` inside the buffer, writing `v` with `setbits` and reading `n`
bits back with `getbits` at the same offset yields `v mod 2^n`; and at or
beyond the buffer end `getbit` returns 0 and `setbit` is a no-op, with
neither failing. -/
theorem c9_roundtrip_and_oob :
    (∀ (buf : List Nat) (off n v : Nat), 1 ≤ n → n ≤ 16 → off + n ≤ 8 * buf.length →
      getbits (setbits buf off n v) off n = v % 2 ^ n) ∧
    (∀ (buf : List Nat) (pos bit : Nat), 8 * buf.length ≤ pos →
      getbit buf pos = 0 ∧ setbit buf bit pos = buf) := by
  constructor
  · intro buf off n v _ _ h3
    exact setbits_getbits_roundtrip n buf off v h3
  · intro buf pos bit h
    exact ⟨getbit_oob (by omega), setbit_oob (by omega)⟩

theorem c9_roundtrip_and_oob_witness :
    ((1 : Nat) ≤ 16 ∧ (16 : Nat) ≤ 16 ∧ 3 + 16 ≤ 8 * ([0, 0, 0] : List Nat).length ∧
      getbits (setbits [0, 0, 0] 3 16 0xABCD) 3 16 = 0xABCD % 2 ^ 16) ∧
    (8 * ([0, 0, 0] : List Nat).length ≤ 24 ∧
      getbit [0, 0, 0] 24 = 0 ∧ setbit [0, 0, 0] 1 24 = [0, 0, 0]) :=
  ⟨⟨by decide, by decide, by decide,
      c9_roundtrip_and_oob.1 [0, 0, 0] 3 16 0xABCD (by decide) (by decide) (by decide)⟩,
    ⟨by decide, c9_roundtrip_and_oob.2 [0, 0, 0] 24 1 (by decide)⟩⟩

/-! ### Claim C10 — negative bit offsets index from the end (Python semantics) -/

/-- C10: for `1 ≤ k ≤ 8·len`, the `Int`-offset accessors at offset `-k`
read/write the bit at non-negative offset `8·len − k` (i.e. the byte at
Python index `pos // 8` near the end of the buffer); for `k > 8·len`
(including every negative offset on an empty buffer) both raise an index
error (`none`) instead of being total. -/
theorem c10_negative_offsets :
    ∀ (buf : List Nat) (k : Nat), 1 ≤ k →
      (k ≤ 8 * buf.length →
        getbitI buf (-(k : Int)) = some (getbit buf (8 * buf.length - k)) ∧
        ∀ bit, setbitI buf bit (-(k : Int)) = some (setbit buf bit (8 * buf.length - k))) ∧
      (8 * buf.length < k →
        getbitI buf (-(k : Int)) = none ∧ ∀ bit, setbitI buf bit (-(k : Int)) = none) := by
  intro buf k hk
  have hguard : ¬ ((buf.length : Int) ≤ (-(k : Int)) / 8) := by omega
  constructor
  · intro hin
    have hpy : pyAt buf ((-(k : Int)) / 8) =
        some (buf.getD ((8 * buf.length - k) / 8) 0) := by
      unfold pyAt
      rw [if_neg (by omega), if_pos (by omega)]
      congr 2
      omega
    have hmask : ((-(k : Int)) % 8).toNat = (8 * buf.length - k) % 8 := by omega
    have hidx : ((8 * buf.length - k) / 8) < buf.length := by omega
    constructor
    · unfold getbitI
      rw [if_neg hguard, hpy]
      unfold getbit
      rw [if_neg (by omega), hmask]
      rfl
    · intro bit
      have hset : pySet buf ((-(k : Int)) / 8) =
          fun v => buf.set ((8 * buf.length - k) / 8) v := by
        funext v
        unfold pySet
        rw [if_neg (by omega)]
        congr 1
        omega
      have hsetbit : setbit buf bit (8 * buf.length - k) =
          if bit ≠ 0 then
            buf.set ((8 * buf.length - k) / 8)
              (buf.getD ((8 * buf.length - k) / 8) 0 |||
                (0x80 >>> ((8 * buf.length - k) % 8)))
          else
            buf.set ((8 * buf.length - k) / 8)
              (buf.getD ((8 * buf.length - k) / 8) 0 &&&
                (0xFF ^^^ (0x80 >>> ((8 * buf.length - k) % 8)))) := by
        unfold setbit
        rw [if_neg (by omega)]
      unfold setbitI
      rw [if_neg hguard, hpy, hsetbit]
      dsimp only
      rw [hmask]
      by_cases hb : bit ≠ 0
      · rw [if_pos hb, if_pos hb]
        simp only [hset]
      · rw [if_neg hb, if_neg hb]
        simp only [hset]
  · intro hout
    have hpy : pyAt buf ((-(k : Int)) / 8) = none := by
      unfold pyAt
      rw [if_neg (by omega), if_neg (by omega)]
    constructor
    · unfold getbitI
      rw [if_neg hguard, hpy]
      rfl
    · intro bit
      unfold setbitI
      rw [if_neg hguard, hpy]

theorem c10_negative_offsets_witness :
    ((1 : Nat) ≤ 1 ∧ (1 : Nat) ≤ 8 * ([0, 1] : List Nat).length ∧
      getbitI [0, 1] (-(1 : Int)) = some (getbit [0, 1] (8 * ([0, 1] : List Nat).length - 1)) ∧
      setbitI [0, 1] 1 (-(1 : Int)) =
        some (setbit [0, 1] 1 (8 * ([0, 1] : List Nat).length - 1))) ∧
    getbit [0, 1] 15 = 1 ∧
    ((1 : Nat) ≤ 17 ∧ 8 * ([0, 1] : List Nat).length < 17 ∧
      getbitI [0, 1] (-(17 : Int)) = none ∧ setbitI [0, 1] 1 (-(17 : Int)) = none) :=
  ⟨⟨by decide, by decide,
      ((c10_negative_offsets [0, 1] 1 (by decide)).1 (by decide)).1,
      ((c10_negative_offsets [0, 1] 1 (by decide)).1 (by decide)).2 1⟩,
    by decide,
    ⟨by decide, by decide,
      ((c10_negative_offsets [0, 1] 17 (by decide)).2 (by decide)).1,
      ((c10_negative_offsets [0, 1] 17 (by decide)).2 (by decide)).2 1⟩⟩

theorem crc16_foldl_lt (l : List Nat) :
    ∀ a, a < 65536 →
      List.foldl
        (fun crc b =>
          (crcTable.getD ((b ^^^ (crc >>> 8)) &&& 0xFF) 0 ^^^ ((crc <<< 8) &&& 0xFFFF)) &&& 0xFFFF)
        a l < 65536 := by
  induction l with
  | nil => intro a h; exact h
  | cons b l ih =>
      intro a _
      apply ih
      have hle : (fun crc b =>
          (crcTable.getD ((b ^^^ (crc >>> 8)) &&& 0xFF) 0 ^^^
            ((crc <<< 8) &&& 0xFFFF)) &&& 0xFFFF) a b ≤ 0xFFFF := Nat.and_le_right
      omega

theorem crc16_lt (data : List Nat) (crc : Nat) : crc16 data crc < 65536 := by
  unfold crc16
  apply crc16_foldl_lt
  have : crc &&& 0xFFFF ≤ 0xFFFF := Nat.and_le_right
  omega

theorem take_drop_set_high {l : List Nat} {i a m : Nat} (h : m + 2 ≤ i) :
    ((l.set i a).drop 2).take m = (l.drop 2).take m := by
  apply List.ext
  intro n
  by_cases hn : n < m
  · rw [List.get?_take hn, List.get?_take hn, List.get?_drop, List.get?_drop]
    exact List.get?_set_ne _ _ (by omega)
  · rw [List.get?_eq_none.mpr, List.get?_eq_none.mpr]
    · simp only [List.length_take, List.length_drop]
      omega
    · simp only [List.length_take, List.length_drop, List.length_set]
      omega

/-! ### Claim C1 — frame checksum repair -/

/-- C1: for a frame of total length `L ≥ 6`, after `eac3_rewrite_crc2_like_c`
the two bytes at `L-2`, `L-1` hold, high byte first, the CRC-16 of the byte
range `[2, L-2)` (seed 0), and every byte at an index `< L-2` is unchanged
(the output keeps length `L`, so no index `≥ L` exists); for `L < 6` the
frame is left entirely untouched. -/
theorem c1_checksum_repair (frame : List Nat) (L : Nat) (hL : frame.length = L) :
    (L < 6 → eac3_rewrite_crc2_like_c frame L = frame) ∧
    (6 ≤ L →
      (eac3_rewrite_crc2_like_c frame L).length = L ∧
      (∀ i, i < L - 2 →
        (eac3_rewrite_crc2_like_c frame L).getD i 0 = frame.getD i 0) ∧
      (eac3_rewrite_crc2_like_c frame L).getD (L - 2) 0 * 256 +
          (eac3_rewrite_crc2_like_c frame L).getD (L - 1) 0 =
        crc16 (((eac3_rewrite_crc2_like_c frame L).drop 2).take (L - 2 - 2)) 0) := by
  constructor
  · intro h6
    unfold eac3_rewrite_crc2_like_c
    rw [if_pos h6]
  · intro h6
    have hrw : eac3_rewrite_crc2_like_c frame L =
        (frame.set (L - 2) ((crc16 ((frame.drop 2).take (L - 2 - 2)) 0 >>> 8) &&& 0xFF)).set
          (L - 1) (crc16 ((frame.drop 2).take (L - 2 - 2)) 0 &&& 0xFF) := by
      unfold eac3_rewrite_crc2_like_c
      rw [if_neg (by omega)]
    set c : Nat := crc16 ((frame.drop 2).take (L - 2 - 2)) 0 with hc
    have hclt : c < 65536 := crc16_lt _ _
    have hlen : (eac3_rewrite_crc2_like_c frame L).length = L := by
      rw [hrw, List.length_set, List.length_set, hL]
    refine ⟨hlen, ?_, ?_⟩
    · intro i hi
      rw [hrw, getD_set_ne (by omega), getD_set_ne (by omega)]
    · have hslice : ((eac3_rewrite_crc2_like_c frame L).drop 2).take (L - 2 - 2) =
          (frame.drop 2).take (L - 2 - 2) := by
        rw [hrw, take_drop_set_high (by omega), take_drop_set_high (by omega)]
      have hhi : (eac3_rewrite_crc2_like_c frame L).getD (L - 2) 0 = (c >>> 8) &&& 0xFF := by
        rw [hrw, getD_set_ne (by omega), getD_set_self (by rw [hL]; omega)]
      have hlo : (eac3_rewrite_crc2_like_c frame L).getD (L - 1) 0 = c &&& 0xFF := by
        rw [hrw, getD_set_self (by rw [List.length_set, hL]; omega)]
      rw [hslice, hhi, hlo, ← hc]
      have e1 : c >>> 8 = c / 256 := by
        rw [Nat.shiftRight_eq_div_pow]
      have e2 : ∀ x : Nat, x &&& 0xFF = x % 256 := by
        intro x
        have := Nat.and_pow_two_sub_one_eq_mod x 8
        norm_num at this
        exact this
      rw [e1, e2, e2]
      omega

theorem c1_checksum_repair_witness :
    (([11, 119, 1, 2, 0, 0] : List Nat).length = 6) ∧
    (6 ≤ 6 ∧
      (eac3_rewrite_crc2_like_c [11, 119, 1, 2, 0, 0] 6).length = 6 ∧
      (∀ i, i < 6 - 2 →
        (eac3_rewrite_crc2_like_c [11, 119, 1, 2, 0, 0] 6).getD i 0 =
          ([11, 119, 1, 2, 0, 0] : List Nat).getD i 0) ∧
      (eac3_rewrite_crc2_like_c [11, 119, 1, 2, 0, 0] 6).getD (6 - 2) 0 * 256 +
          (eac3_rewrite_crc2_like_c [11, 119, 1, 2, 0, 0] 6).getD (6 - 1) 0 =
        crc16 (((eac3_rewrite_crc2_like_c [11, 119, 1, 2, 0, 0] 6).drop 2).take (6 - 2 - 2)) 0) :=
  ⟨rfl, by decide, (c1_checksum_repair [11, 119, 1, 2, 0, 0] 6 rfl).2 (by decide)⟩

set_option maxRecDepth 4000 in
/-- Every nonzero table entry is at least 64 (so every AC-3 frame is at
least 128 bytes long). -/
theorem fsizetable_entries : ∀ e ∈ fsizetable, e = 0 ∨ 64 ≤ e := by decide

set_option maxRecDepth 4000 in
theorem fsizetable_length : fsizetable.length = 250 := by decide

/-! ### Claim C4 — AC-3 length lookup (code bug: the table is short) -/

/-- C4 (failing input): a syntactically valid 6-byte AC-3 header whose
`frmsizecod` byte is 250 makes the table lookup fail with the modeled
Python `IndexError` — not with the `invalid frmsizecod` framing error the
specification describes — because `fsizetable` has only 250 entries
instead of 4×64 = 256.  For every `frmsizecod < 250` the lookup itself
never fails: it yields either `invalidFrmsizecod` (zero entry) or a frame
length of at least 128. -/
theorem c4_frmsizecod_lookup :
    (readFrame [0x0B, 0x77, 0, 0, 250, 0] = .error .indexErr ∧
      Err.indexErr ≠ Err.invalidFrmsizecod) ∧
    (∀ code : Nat, code < 250 →
      ∃ e, fsizetable.get? code = some e ∧ (e = 0 ∨ 128 ≤ e * 2)) := by
  constructor
  · exact ⟨rfl, by decide⟩
  · intro code hcode
    have hlt : code < fsizetable.length := by rw [fsizetable_length]; omega
    refine ⟨fsizetable.get ⟨code, hlt⟩, List.get?_eq_get hlt, ?_⟩
    have hmem : fsizetable.get ⟨code, hlt⟩ ∈ fsizetable := List.get_mem ..
    rcases fsizetable_entries _ hmem with h | h
    · exact Or.inl h
    · right; omega

theorem eac3_parse_positions_eq (fr : List Nat) :
    eac3_parse_positions fr =
      ⟨getbits fr 16 2, 45, 50, 51, if getbits fr 50 1 = 1 then 59 else 51⟩ := rfl

theorem scan_start_ge (fr : List Nat) : 51 ≤ (eac3_parse_positions fr).scan_start := by
  rw [eac3_parse_positions_eq]
  dsimp only
  split <;> omega

set_option maxRecDepth 100000 in
/-- C3 (counterexample): offset 2100 lies in the claimed interval
`[scan_start, frame_bit_length − 17)` of a sampled dependent frame, yet the
detector never examines it — the scan stops at `scan_start + 2048`. -/
theorem c3_cex :
    (eac3_parse_positions frameC3).scan_start ≤ 2100 ∧
    2100 < frameC3.length * 8 - 17 ∧
    2100 ∉ scan_range frameC3 2048 ∧
    10 ≤ frameC3.getD 5 0 >>> 3 ∧
    (eac3_parse_positions frameC3).strmtype = 1 := by decide

/-- C3 (amended): for the detector's fixed `extra_bits = 2048`, the
candidate offsets examined for a frame are exactly the `p` with
`scan_start ≤ p < min(frame_bit_length − 17, scan_start + 2048)`; no offset
inside that (possibly capped) interval is skipped. -/
theorem c3_scan_window (fr : List Nat) (p : Nat) :
    p ∈ scan_range fr 2048 ↔
      (eac3_parse_positions fr).scan_start ≤ p ∧
        p < min (fr.length * 8 - 17) ((eac3_parse_positions fr).scan_start + 2048) := by
  unfold scan_range
  rw [List.mem_range'_1]
  omega

/-! #### Selection-fold lemmas -/

theorem score_den_pos (h : Hist) : 0 < (score h).2 := by
  unfold score
  split
  · exact Nat.one_pos
  · rename_i hne
    exact Nat.pos_of_ne_zero hne

theorem scoreLt_trans {a b c : Int × Nat} (ha : 0 < a.2) (hb : 0 < b.2) (hc : 0 < c.2)
    (h1 : scoreLt a b) (h2 : scoreLt b c) : scoreLt a c := by
  unfold scoreLt at *
  have ha' : (0 : Int) < a.2 := by exact_mod_cast ha
  have hb' : (0 : Int) < b.2 := by exact_mod_cast hb
  have hc' : (0 : Int) < c.2 := by exact_mod_cast hc
  have h1' := mul_lt_mul_of_pos_right h1 hc'
  have h2' := mul_lt_mul_of_pos_right h2 ha'
  have hkey : a.1 * (c.2 : Int) * (b.2 : Int) < c.1 * (a.2 : Int) * (b.2 : Int) := by
    nlinarith
  exact lt_of_mul_lt_mul_right hkey (le_of_lt hb')

theorem scoreLt_of_le_of_lt {a b c : Int × Nat} (ha : 0 < a.2) (hb : 0 < b.2) (hc : 0 < c.2)
    (h1 : ¬ scoreLt a b) (h2 : scoreLt a c) : scoreLt b c := by
  unfold scoreLt at *
  push_neg at h1
  have ha' : (0 : Int) < a.2 := by exact_mod_cast ha
  have hb' : (0 : Int) < b.2 := by exact_mod_cast hb
  have hc' : (0 : Int) < c.2 := by exact_mod_cast hc
  have h1' := mul_le_mul_of_nonneg_right h1 (le_of_lt hc')
  have h2' := mul_lt_mul_of_pos_right h2 hb'
  have hkey : b.1 * (c.2 : Int) * (a.2 : Int) < c.1 * (b.2 : Int) * (a.2 : Int) := by
    nlinarith
  exact lt_of_mul_lt_mul_right hkey (le_of_lt ha')

/-- Any score beats the initial `best_score = -1.0`. -/
theorem scoreLt_init (h : Hist) : scoreLt ((-1 : Int), (1 : Nat)) (score h) := by
  unfold score scoreLt
  split
  · norm_num
  · rename_i hne
    have hden : (0 : Int) < ((sumCounts h : Nat) : Int) := by
      exact_mod_cast Nat.pos_of_ne_zero hne
    have hnum : (0 : Int) ≤ (maxCount h : Int) * (maxCount h : Int) := mul_self_nonneg _
    simp only
    nlinarith

/-- The selection fold returns the first entry attaining the overall
maximal score (strictly above the initial score), or the initial
accumulator when nothing beats it. -/
theorem bestFold_spec :
    ∀ (ph : PosHist) (a : Option Nat × (Int × Nat)), 0 < a.2.2 →
      (ph.foldl bestStep a = a ∧ ∀ e ∈ ph, ¬ scoreLt a.2 (score e.2)) ∨
      (∃ pre e post, ph = pre ++ e :: post ∧
        ph.foldl bestStep a = (some e.1, score e.2) ∧
        scoreLt a.2 (score e.2) ∧
        (∀ e' ∈ pre, scoreLt (score e'.2) (score e.2)) ∧
        (∀ e' ∈ post, ¬ scoreLt (score e.2) (score e'.2))) := by
  intro ph
  induction ph with
  | nil =>
      intro a _
      left
      exact ⟨rfl, by simp⟩
  | cons e tl ih =>
      intro a ha
      rw [List.foldl_cons]
      by_cases hlt : scoreLt a.2 (score e.2)
      · have hstep : bestStep a e = (some e.1, score e.2) := by
          unfold bestStep
          rw [if_pos hlt]
        rw [hstep]
        rcases ih (some e.1, score e.2) (score_den_pos e.2) with
          ⟨heq, hall⟩ | ⟨pre, e', post, hsplit, hres, hlt', hpre, hpost⟩
        · right
          exact ⟨[], e, tl, rfl, heq, hlt, by simp, fun e' he' => hall e' he'⟩
        · right
          refine ⟨e :: pre, e', post, by rw [hsplit]; rfl, hres, ?_, ?_, hpost⟩
          · exact scoreLt_trans ha (score_den_pos e.2) (score_den_pos e'.2) hlt hlt'
          · intro e'' he''
            rcases List.mem_cons.mp he'' with rfl | hm
            · exact hlt'
            · exact hpre _ hm
      · have hstep : bestStep a e = a := by
          unfold bestStep
          rw [if_neg hlt]
        rw [hstep]
        rcases ih a ha with ⟨heq, hall⟩ | ⟨pre, e', post, hsplit, hres, hlt', hpre, hpost⟩
        · left
          refine ⟨heq, ?_⟩
          intro e'' he''
          rcases List.mem_cons.mp he'' with rfl | hm
          · exact hlt
          · exact hall _ hm
        · right
          refine ⟨e :: pre, e', post, by rw [hsplit]; rfl, hres, hlt', ?_, hpost⟩
          intro e'' he''
          rcases List.mem_cons.mp he'' with rfl | hm
          · exact scoreLt_of_le_of_lt ha (score_den_pos e''.2) (score_den_pos e'.2) hlt hlt'
          · exact hpre _ hm

/-- `find_chanmap_bitpos` returns the first histogram key (in insertion
order) attaining the maximal score: entries before it score strictly
lower, entries after it score at most as much. -/
theorem find_chanmap_spec {samples : List (List Nat)} {extra_bits o : Nat}
    (h : find_chanmap_bitpos samples extra_bits = some o) :
    ∃ pre h' post, posHist samples extra_bits = pre ++ (o, h') :: post ∧
      (∀ e ∈ pre, scoreLt (score e.2) (score h')) ∧
      (∀ e ∈ post, ¬ scoreLt (score h') (score e.2)) := by
  unfold find_chanmap_bitpos at h
  by_cases hemp : posHist samples extra_bits = []
  · rw [if_pos hemp] at h
    cases h
  · rw [if_neg hemp] at h
    unfold bestPos at h
    rcases bestFold_spec (posHist samples extra_bits)
        ((none : Option Nat), ((-1 : Int), (1 : Nat))) Nat.one_pos with
      ⟨heq, _⟩ | ⟨pre, e, post, hsplit, hres, _, hpre, hpost⟩
    · rw [heq] at h
      cases h
    · rw [hres] at h
      have ho : e.1 = o := by
        simpa using h
      refine ⟨pre, e.2, post, ?_, hpre, hpost⟩
      rw [← ho]
      exact hsplit

/-- A nonempty histogram always yields a position (every score beats the
initial -1.0). -/
theorem find_chanmap_none_iff (samples : List (List Nat)) (extra_bits : Nat) :
    find_chanmap_bitpos samples extra_bits = none ↔ posHist samples extra_bits = [] := by
  unfold find_chanmap_bitpos
  by_cases hemp : posHist samples extra_bits = []
  · rw [if_pos hemp]
    simp [hemp]
  · rw [if_neg hemp]
    simp only [hemp, iff_false]
    unfold bestPos
    rcases bestFold_spec (posHist samples extra_bits)
        ((none : Option Nat), ((-1 : Int), (1 : Nat))) Nat.one_pos with
      ⟨_, hall⟩ | ⟨_, e, _, _, hres, _, _, _⟩
    · rcases List.exists_mem_of_ne_nil _ hemp with ⟨e, he⟩
      exact absurd (scoreLt_init e.2) (hall e he)
    · rw [hres]
      simp

/-! #### Histogram-key provenance -/

theorem posHistAdd_mem {ph : PosHist} {key v : Nat} :
    ∀ e ∈ posHistAdd ph key v, e.1 = key ∨ ∃ h', (e.1, h') ∈ ph := by
  induction ph with
  | nil =>
      intro e he
      unfold posHistAdd at he
      rcases List.mem_singleton.mp he with rfl
      exact Or.inl rfl
  | cons kh rest ih =>
      intro e he
      obtain ⟨k, h⟩ := kh
      unfold posHistAdd at he
      by_cases hk : k = key
      · rw [if_pos hk] at he
        rcases List.mem_cons.mp he with rfl | hm
        · exact Or.inl hk
        · exact Or.inr ⟨e.2, List.mem_cons_of_mem _ hm⟩
      · rw [if_neg hk] at he
        rcases List.mem_cons.mp he with rfl | hm
        · exact Or.inr ⟨h, List.mem_cons_self _ _⟩
        · rcases ih e hm with h1 | ⟨h', h2⟩
          · exact Or.inl h1
          · exact Or.inr ⟨h', List.mem_cons_of_mem _ h2⟩

theorem scanStep_mem {fr : List Nat} {ph : PosHist} {p : Nat} :
    ∀ e ∈ scanStep fr ph p,
      (∃ h', (e.1, h') ∈ ph) ∨ (e.1 = p + 1 ∧ Qualifies fr p) := by
  intro e he
  unfold scanStep at he
  by_cases h1 : getbit fr p ≠ 1
  · rw [if_pos h1] at he
    exact Or.inl ⟨e.2, he⟩
  · rw [if_neg h1] at he
    push_neg at h1
    by_cases h2 : getbits fr (p + 1) 16 = 0x0000 ∨ getbits fr (p + 1) 16 = 0xFFFF
    · rw [if_pos h2] at he
      exact Or.inl ⟨e.2, he⟩
    · rw [if_neg h2] at he
      push_neg at h2
      rcases posHistAdd_mem e he with hk | hm
      · exact Or.inr ⟨hk, h1, h2.1, h2.2⟩
      · exact Or.inl hm

theorem scanFold_mem {fr : List Nat} :
    ∀ (l : List Nat) (ph : PosHist), ∀ e ∈ l.foldl (scanStep fr) ph,
      (∃ h', (e.1, h') ∈ ph) ∨ ∃ p ∈ l, e.1 = p + 1 ∧ Qualifies fr p := by
  intro l
  induction l with
  | nil =>
      intro ph e he
      exact Or.inl ⟨e.2, he⟩
  | cons p l ih =>
      intro ph e he
      rw [List.foldl_cons] at he
      rcases ih (scanStep fr ph p) e he with ⟨h', hm⟩ | ⟨p', hp', hq⟩
      · rcases scanStep_mem (e.1, h') hm with ⟨h'', hm'⟩ | hq
        · exact Or.inl ⟨h'', hm'⟩
        · exact Or.inr ⟨p, List.mem_cons_self _ _, hq⟩
      · exact Or.inr ⟨p', List.mem_cons_of_mem _ hp', hq⟩

theorem scanFrame_mem {extra_bits : Nat} {ph : PosHist} {fr : List Nat} :
    ∀ e ∈ scanFrame extra_bits ph fr,
      (∃ h', (e.1, h') ∈ ph) ∨
      (10 ≤ fr.getD 5 0 >>> 3 ∧ (eac3_parse_positions fr).strmtype = 1 ∧
        ∃ p ∈ scan_range fr extra_bits, e.1 = p + 1 ∧ Qualifies fr p) := by
  intro e he
  unfold scanFrame at he
  by_cases h1 : fr.getD 5 0 >>> 3 < 10
  · rw [if_pos h1] at he
    exact Or.inl ⟨e.2, he⟩
  · rw [if_neg h1] at he
    by_cases h2 : (eac3_parse_positions fr).strmtype ≠ 1
    · rw [if_pos h2] at he
      exact Or.inl ⟨e.2, he⟩
    · rw [if_neg h2] at he
      push_neg at h1 h2
      rcases scanFold_mem _ ph e he with hm | ⟨p, hp, hq⟩
      · exact Or.inl hm
      · exact Or.inr ⟨h1, h2, p, hp, hq⟩

theorem posHist_mem {extra_bits : Nat} :
    ∀ (samples : List (List Nat)) (ph : PosHist),
      ∀ e ∈ samples.foldl (scanFrame extra_bits) ph,
        (∃ h', (e.1, h') ∈ ph) ∨
        ∃ fr ∈ samples, 10 ≤ fr.getD 5 0 >>> 3 ∧
          (eac3_parse_positions fr).strmtype = 1 ∧
          ∃ p ∈ scan_range fr extra_bits, e.1 = p + 1 ∧ Qualifies fr p := by
  intro samples
  induction samples with
  | nil =>
      intro ph e he
      exact Or.inl ⟨e.2, he⟩
  | cons fr samples ih =>
      intro ph e he
      rw [List.foldl_cons] at he
      rcases ih (scanFrame extra_bits ph fr) e he with ⟨h', hm⟩ | ⟨fr', hfr', hrest⟩
      · rcases scanFrame_mem (e.1, h') hm with ⟨h'', hm'⟩ | hq
        · exact Or.inl ⟨h'', hm'⟩
        · exact Or.inr ⟨fr, List.mem_cons_self _ _, hq⟩
      · exact Or.inr ⟨fr', List.mem_cons_of_mem _ hfr', hrest⟩

/-- Every offset returned by the detector is `p + 1` for a qualifying hit
`p` in some sampled dependent frame. -/
theorem find_chanmap_provenance {samples : List (List Nat)} {extra_bits o : Nat}
    (h : find_chanmap_bitpos samples extra_bits = some o) :
    ∃ fr ∈ samples, 10 ≤ fr.getD 5 0 >>> 3 ∧
      (eac3_parse_positions fr).strmtype = 1 ∧
      ∃ p ∈ scan_range fr extra_bits, o = p + 1 ∧ Qualifies fr p := by
  obtain ⟨pre, h', post, hsplit, -, -⟩ := find_chanmap_spec h
  have hmem : (o, h') ∈ posHist samples extra_bits := by
    rw [hsplit]
    exact List.mem_append_right _ (List.mem_cons_self _ _)
  rcases posHist_mem samples [] (o, h') hmem with ⟨_, hm⟩ | hq
  · cases hm
  · exact hq

/-- The returned offset is always at least 52 (`scan_start ≥ 51`). -/
theorem find_chanmap_ge {samples : List (List Nat)} {extra_bits o : Nat}
    (h : find_chanmap_bitpos samples extra_bits = some o) : 52 ≤ o := by
  obtain ⟨fr, -, -, -, p, hp, rfl, -⟩ := find_chanmap_provenance h
  have hge := scan_start_ge fr
  unfold scan_range at hp
  rw [List.mem_range'_1] at hp
  omega

set_option maxRecDepth 100000 in
/-- C6 (counterexample): on the sample `[frameI5]` the detector returns
offset 52, yet the (only) sampled dependent frame has bit 0 at offset 52 —
the presence bit sits at 51 and the histogram was keyed by `p + 1`, not by
`p` as the specification states. -/
theorem c6_cex :
    find_chanmap_bitpos [frameI5] 2048 = some 52 ∧
    (∀ fr ∈ [frameI5], (eac3_parse_positions fr).strmtype = 1 ∧ getbit fr 52 ≠ 1) := by
  constructor
  · decide
  · decide

/-- C6 (amended): each qualifying value is recorded keyed by `p + 1` (the
start of the 16 value bits), so for every returned offset `o` some sampled
dependent frame has the presence bit `o − 1` set, and the 16 value bits
read in step 2 begin at `o` itself. -/
theorem c6_keyed_by_value_start (samples : List (List Nat)) (extra_bits o : Nat)
    (h : find_chanmap_bitpos samples extra_bits = some o) :
    ∃ fr ∈ samples, 10 ≤ fr.getD 5 0 >>> 3 ∧
      (eac3_parse_positions fr).strmtype = 1 ∧
      ∃ p ∈ scan_range fr extra_bits, o = p + 1 ∧ getbit fr p = 1 ∧
        getbits fr (p + 1) 16 ≠ 0x0000 ∧ getbits fr (p + 1) 16 ≠ 0xFFFF := by
  obtain ⟨fr, hfr, h1, h2, p, hp, ho, hq⟩ := find_chanmap_provenance h
  exact ⟨fr, hfr, h1, h2, p, hp, ho, hq.1, hq.2.1, hq.2.2⟩

set_option maxRecDepth 100000 in
theorem c6_keyed_by_value_start_witness :
    find_chanmap_bitpos [frameI5] 2048 = some 52 ∧
    (∃ fr ∈ [frameI5], 10 ≤ fr.getD 5 0 >>> 3 ∧
      (eac3_parse_positions fr).strmtype = 1 ∧
      ∃ p ∈ scan_range fr 2048, 52 = p + 1 ∧ getbit fr p = 1 ∧
        getbits fr (p + 1) 16 ≠ 0x0000 ∧ getbits fr (p + 1) 16 ≠ 0xFFFF) :=
  ⟨by decide, c6_keyed_by_value_start [frameI5] 2048 52 (by decide)⟩

set_option maxRecDepth 100000 in
/-- C7 (counterexample): sampling `frameA` before `frameB` inserts key 60
before key 52; both keys carry the identical histogram `{1: 1}` and hence
the identical (maximal) score, yet the detector returns 60, not the
smaller offset 52 — ties resolve by insertion order, not by ascending
numeric order. -/
theorem c7_cex :
    find_chanmap_bitpos [frameA, frameB] 2048 = some 60 ∧
    posHist [frameA, frameB] 2048 = [(60, [(1, 1)]), (52, [(1, 1)])] ∧
    (52 : Nat) < 60 := by
  refine ⟨by decide, by decide, by decide⟩

/-- C7 (amended): when several candidate offsets attain the maximal score,
the one returned is the first in histogram insertion order (ascending scan
order within each frame, sample order across frames): every earlier key
scores strictly lower and every later key scores no higher.  Insertion
order coincides with ascending numeric order within a single frame but not
across frames with different `scan_start`. -/
theorem c7_tie_breaks_by_insertion (samples : List (List Nat)) (extra_bits o : Nat)
    (h : find_chanmap_bitpos samples extra_bits = some o) :
    ∃ pre h' post, posHist samples extra_bits = pre ++ (o, h') :: post ∧
      (∀ e ∈ pre, scoreLt (score e.2) (score h')) ∧
      (∀ e ∈ post, ¬ scoreLt (score h') (score e.2)) :=
  find_chanmap_spec h

set_option maxRecDepth 100000 in
theorem c7_tie_breaks_by_insertion_witness :
    find_chanmap_bitpos [frameA, frameB] 2048 = some 60 ∧
    (∃ pre h' post, posHist [frameA, frameB] 2048 = pre ++ (60, h') :: post ∧
      (∀ e ∈ pre, scoreLt (score e.2) (score h')) ∧
      (∀ e ∈ post, ¬ scoreLt (score h') (score e.2))) :=
  ⟨by decide, c7_tie_breaks_by_insertion [frameA, frameB] 2048 60 (by decide)⟩

/-! ### Claim C8 — detection fails iff the histogram is empty, before output -/

/-- C8: chanmap detection fails exactly when the histogram is empty (no
dependent frame sampled, or no offset ever saw a qualifying 17-bit
pattern), and in that case the whole operation aborts with the detection
error — the patch pass never runs and no output is produced. -/
theorem c8_detection_failure :
    (∀ (samples : List (List Nat)) (extra_bits : Nat),
      find_chanmap_bitpos samples extra_bits = none ↔ posHist samples extra_bits = []) ∧
    (∀ (s : List Nat) (samples : List (List Nat)),
      collectSamples s = .ok samples → find_chanmap_bitpos samples 2048 = none →
      patch_file s = .error .detection) := by
  constructor
  · exact find_chanmap_none_iff
  · intro s samples hc hf
    unfold patch_file
    rw [hc]
    dsimp only
    rw [hf]

theorem c8_detection_failure_witness :
    collectSamples [] = .ok [] ∧ posHist [] 2048 = [] ∧
    find_chanmap_bitpos [] 2048 = none ∧ patch_file [] = .error .detection :=
  ⟨rfl, rfl, (c8_detection_failure.1 [] 2048).mpr rfl,
    c8_detection_failure.2 [] [] rfl rfl⟩

/-! #### Structural facts about `readFrame` and `parseFrames` -/

theorem take_getD {s : List Nat} {n i : Nat} (h : i < n) (d : Nat) :
    (s.take n).getD i d = s.getD i d := by
  simp [List.getD_eq_getElem?_getD, List.getElem?_take_of_lt h]

theorem append_getD_left {l1 l2 : List Nat} {i : Nat} (h : i < l1.length) (d : Nat) :
    (l1 ++ l2).getD i d = l1.getD i d := by
  simp [List.getD_eq_getElem?_getD, List.getElem?_append, h]

theorem finishRead_elim {s : List Nat} {frameLen : Nat} {kind : Kind} {f : Fr}
    {rest : List Nat} (h : finishRead s frameLen kind = .ok (some (f, rest))) :
    f = ⟨s.take frameLen, frameLen, kind⟩ ∧ rest = s.drop frameLen ∧ frameLen ≤ s.length := by
  unfold finishRead at h
  split at h
  · cases h
  · rename_i hle
    simp only [Except.ok.injEq, Option.some.injEq, Prod.mk.injEq] at h
    exact ⟨h.1.symm, h.2.symm, by omega⟩

theorem readFrame_some {s : List Nat} {f : Fr} {rest : List Nat}
    (h : readFrame s = .ok (some (f, rest))) :
    f.fr = s.take f.frlen ∧ rest = s.drop f.frlen ∧ f.frlen ≤ s.length ∧
    s = f.fr ++ rest ∧ FrWF f := by
  unfold readFrame at h
  split at h
  · cases h
  split at h
  · cases h
  split at h
  · cases h
  rename_i hne0 hge6 hsync
  push_neg at hsync
  have hlen6 : 6 ≤ s.length := by omega
  split at h
  · -- AC-3 branch
    rename_i hbsid
    split at h
    · cases h
    rename_i e hg
    split at h
    · cases h
    rename_i hez
    obtain ⟨hf, hrest, hle⟩ := finishRead_elim h
    have hmem : e ∈ fsizetable := List.get?_mem hg
    have h64 : 64 ≤ e := by
      rcases fsizetable_entries e hmem with h0 | h0
      · omega
      · exact h0
    have h10 : 10 ≤ e * 2 := by omega
    subst hf
    refine ⟨rfl, hrest, hle, ?_, ?_⟩
    · rw [hrest]
      exact (List.take_append_drop _ s).symm
    · refine ⟨?_, h10, ?_, ?_, ?_, ?_⟩
      · simp only [List.length_take]
        omega
      · rw [take_getD (by omega)]
        exact hsync.1
      · rw [take_getD (by omega)]
        exact hsync.2
      · intro _
        rw [take_getD (by omega), take_getD (by omega)]
        exact ⟨hbsid, e, hg, rfl, hez⟩
      · intro hk
        cases hk
  · -- E-AC-3 branch
    rename_i hbsid
    split at h
    · cases h
    rename_i hsiz
    obtain ⟨hf, hrest, hle⟩ := finishRead_elim h
    have h10 : 10 ≤ (256 * (s.getD 2 0 &&& 7) + s.getD 3 0) * 2 + 2 := by omega
    subst hf
    refine ⟨rfl, hrest, hle, ?_, ?_⟩
    · rw [hrest]
      exact (List.take_append_drop _ s).symm
    · refine ⟨?_, h10, ?_, ?_, ?_, ?_⟩
      · simp only [List.length_take]
        omega
      · rw [take_getD (by omega)]
        exact hsync.1
      · rw [take_getD (by omega)]
        exact hsync.2
      · intro hk
        cases hk
      · intro _
        rw [take_getD (by omega), take_getD (by omega), take_getD (by omega)]
        exact ⟨hbsid, rfl⟩

theorem readFrame_none_iff {s : List Nat} : readFrame s = .ok none ↔ s = [] := by
  constructor
  · intro h
    unfold readFrame at h
    split at h
    · rename_i h0
      exact List.length_eq_zero.mp h0
    split at h
    · cases h
    split at h
    · cases h
    split at h
    · split at h
      · cases h
      split at h
      · cases h
      · unfold finishRead at h
        split at h <;> simp at h
    · split at h
      · cases h
      · unfold finishRead at h
        split at h <;> simp at h
  · rintro rfl
    rfl

theorem readFrame_of_wf (f : Fr) (rest : List Nat) (hwf : FrWF f) :
    readFrame (f.fr ++ rest) = .ok (some (f, rest)) := by
  obtain ⟨ffr, ffrlen, fkind⟩ := f
  obtain ⟨hlen, h10, h0, h1, hac3, heac3⟩ := hwf
  dsimp only at hlen h10 h0 h1 hac3 heac3 ⊢
  have hL : (ffr ++ rest).length = ffrlen + rest.length := by
    simp [hlen]
  have hg0 : (ffr ++ rest).getD 0 0 = 0x0B := by
    rw [append_getD_left (by omega)]
    exact h0
  have hg1 : (ffr ++ rest).getD 1 0 = 0x77 := by
    rw [append_getD_left (by omega)]
    exact h1
  have hg2 : (ffr ++ rest).getD 2 0 = ffr.getD 2 0 := append_getD_left (by omega) 0
  have hg3 : (ffr ++ rest).getD 3 0 = ffr.getD 3 0 := append_getD_left (by omega) 0
  have hg4 : (ffr ++ rest).getD 4 0 = ffr.getD 4 0 := append_getD_left (by omega) 0
  have hg5 : (ffr ++ rest).getD 5 0 = ffr.getD 5 0 := append_getD_left (by omega) 0
  unfold readFrame
  rw [if_neg (by omega), if_neg (by omega)]
  rw [if_neg (show ¬ ((ffr ++ rest).getD 0 0 ≠ 0x0B ∨ (ffr ++ rest).getD 1 0 ≠ 0x77) from by
    rw [hg0, hg1]; simp)]
  cases fkind with
  | ac3 =>
      obtain ⟨hbsid, e, hge, hfl, hez⟩ := hac3 rfl
      rw [hg5, if_pos hbsid, hg4, hge]
      dsimp only
      rw [if_neg hez]
      unfold finishRead
      rw [if_neg (by omega)]
      rw [List.take_left' (by omega), List.drop_left' (by omega)]
      rw [show e * 2 = ffrlen from hfl.symm]
  | eac3 =>
      obtain ⟨hbsid, hfl⟩ := heac3 rfl
      rw [hg5, if_neg hbsid, hg2, hg3]
      rw [if_neg (by omega)]
      unfold finishRead
      rw [if_neg (by omega)]
      rw [List.take_left' (by omega), List.drop_left' (by omega)]
      rw [show (256 * (ffr.getD 2 0 &&& 7) + ffr.getD 3 0) * 2 + 2 = ffrlen from hfl.symm]

theorem parseFramesF_error {s : List Nat} {e : Err} (hr : readFrame s = .error e) :
    ∀ fuel, parseFramesF fuel s = .error e := by
  intro fuel
  cases fuel <;> simp [parseFramesF, hr]

theorem parseFramesF_none {s : List Nat} (hr : readFrame s = .ok none) :
    ∀ fuel, parseFramesF fuel s = .ok [] := by
  intro fuel
  cases fuel <;> simp [parseFramesF, hr]

theorem parseFramesF_some {s : List Nat} {f : Fr} {rest : List Nat}
    (hr : readFrame s = .ok (some (f, rest))) (fuel : Nat) :
    parseFramesF (fuel + 1) s =
      match parseFramesF fuel rest with
      | .error e => .error e
      | .ok frs => .ok (f :: frs) := by
  simp [parseFramesF, hr]

theorem parseFramesF_irrel :
    ∀ fuel (s : List Nat), s.length ≤ fuel → parseFramesF fuel s = parseFramesF s.length s := by
  intro fuel
  induction fuel using Nat.strong_induction_on with
  | _ fuel ih =>
      intro s hs
      cases hr : readFrame s with
      | error e => rw [parseFramesF_error hr, parseFramesF_error hr]
      | ok v =>
          cases v with
          | none => rw [parseFramesF_none hr, parseFramesF_none hr]
          | some p =>
              obtain ⟨f, rest⟩ := p
              obtain ⟨-, hrest, hle, -, hwf⟩ := readFrame_some hr
              have h10 : 10 ≤ f.frlen := hwf.2.1
              have hrl : rest.length < s.length := by
                rw [hrest, List.length_drop]
                omega
              have hfuel : ∃ fl, fuel = fl + 1 := ⟨fuel - 1, by omega⟩
              obtain ⟨fl, rfl⟩ := hfuel
              have hsl : ∃ sl, s.length = sl + 1 := ⟨s.length - 1, by omega⟩
              obtain ⟨sl, hsleq⟩ := hsl
              rw [hsleq, parseFramesF_some hr fl, parseFramesF_some hr sl]
              rw [ih fl (by omega) rest (by omega), ih sl (by omega) rest (by omega)]

theorem parseFrames_nil : parseFrames [] = .ok [] := rfl

theorem parseFrames_cons_of {s rest : List Nat} {f : Fr} {frs : List Fr}
    (hr : readFrame s = .ok (some (f, rest))) (hp : parseFrames rest = .ok frs) :
    parseFrames s = .ok (f :: frs) := by
  obtain ⟨-, hrest, hle, -, hwf⟩ := readFrame_some hr
  have h10 : 10 ≤ f.frlen := hwf.2.1
  have hrl : rest.length < s.length := by
    rw [hrest, List.length_drop]
    omega
  unfold parseFrames
  rw [show s.length = (s.length - 1) + 1 from by omega, parseFramesF_some hr]
  rw [parseFramesF_irrel (s.length - 1) rest (by omega)]
  unfold parseFrames at hp
  rw [hp]

theorem parseFrames_elim {s : List Nat} {x : List Fr} (h : parseFrames s = .ok x) :
    (s = [] ∧ x = []) ∨
    ∃ f rest frs, x = f :: frs ∧ readFrame s = .ok (some (f, rest)) ∧
      parseFrames rest = .ok frs := by
  unfold parseFrames at h
  cases hr : readFrame s with
  | error e =>
      rw [parseFramesF_error hr] at h
      cases h
  | ok v =>
      cases v with
      | none =>
          rw [parseFramesF_none hr] at h
          cases h
          exact Or.inl ⟨readFrame_none_iff.mp hr, rfl⟩
      | some p =>
          obtain ⟨f, rest⟩ := p
          obtain ⟨-, hrest, hle, -, hwf⟩ := readFrame_some hr
          have h10 : 10 ≤ f.frlen := hwf.2.1
          have hrl : rest.length < s.length := by
            rw [hrest, List.length_drop]
            omega
          rw [show s.length = (s.length - 1) + 1 from by omega, parseFramesF_some hr] at h
          cases hrec : parseFramesF (s.length - 1) rest with
          | error e => rw [hrec] at h; cases h
          | ok frs =>
              rw [hrec] at h
              simp only [Except.ok.injEq] at h
              refine Or.inr ⟨f, rest, frs, h.symm, rfl, ?_⟩
              unfold parseFrames
              rw [← parseFramesF_irrel (s.length - 1) rest (by omega)]
              exact hrec

/-- A successfully parsed stream is exactly the concatenation of its
frames. -/
theorem parseFrames_join : ∀ {frs : List Fr} {s : List Nat},
    parseFrames s = .ok frs → s = (frs.map Fr.fr).flatten := by
  intro frs
  induction frs with
  | nil =>
      intro s h
      rcases parseFrames_elim h with ⟨rfl, -⟩ | ⟨f, rest, frs', hx, -, -⟩
      · rfl
      · cases hx
  | cons f frs ih =>
      intro s h
      rcases parseFrames_elim h with ⟨-, hx⟩ | ⟨f', rest, frs', hx, hr, hp⟩
      · cases hx
      · have hf' : f' = f := by
          injection hx with hx1 hx2
          exact hx1.symm
        have hfrs' : frs' = frs := by
          injection hx with hx1 hx2
          exact hx2.symm
        rw [hf'] at hr
        rw [hfrs'] at hp
        have hsplit := (readFrame_some hr).2.2.2.1
        rw [hsplit, ih hp]
        rfl

/-! #### Effect of `patchFrame` on the frame bytes -/

/-- Bytes strictly below the written bit region are untouched by `setbits`. -/
theorem getD_setbits_low {i off : Nat} (h : 8 * i + 8 ≤ off) :
    ∀ (n : Nat) (buf : List Nat) (v d : Nat),
      (setbits buf off n v).getD i d = buf.getD i d := by
  suffices hs : ∀ (n off' : Nat), 8 * i + 8 ≤ off' → ∀ (buf : List Nat) (v d : Nat),
      (setbits buf off' n v).getD i d = buf.getD i d by
    intro n buf v d
    exact hs n off h buf v d
  intro n
  induction n with
  | zero => intro off' _ buf v d; rfl
  | succ n ih =>
      intro off' hoff buf v d
      show (setbits (setbit buf _ off') (off' + 1) n v).getD i d = buf.getD i d
      rw [ih (off' + 1) (by omega), getD_setbit_ne_byte (by omega)]

theorem eac3_rewrite_length (g : List Nat) (frlen : Nat) :
    (eac3_rewrite_crc2_like_c g frlen).length = g.length := by
  unfold eac3_rewrite_crc2_like_c
  split
  · rfl
  · rw [List.length_set, List.length_set]

/-- Bytes below the trailing checksum are untouched by the CRC repair. -/
theorem getD_rewrite_low {g : List Nat} {frlen i : Nat} (h : i < frlen - 2) (d : Nat) :
    (eac3_rewrite_crc2_like_c g frlen).getD i d = g.getD i d := by
  unfold eac3_rewrite_crc2_like_c
  split
  · rfl
  · rw [getD_set_ne (by omega), getD_set_ne (by omega)]

/-- Bits below the trailing checksum are untouched by the CRC repair. -/
theorem getbit_rewrite_low {g : List Nat} {frlen b : Nat} (h : b < 8 * (frlen - 2)) :
    getbit (eac3_rewrite_crc2_like_c g frlen) b = getbit g b := by
  apply getbit_congr (eac3_rewrite_length ..)
  exact getD_rewrite_low (by omega) 0

theorem patchFrame_eac3 (pos : Nat) (ffr : List Nat) (ffrlen : Nat) :
    patchFrame pos ⟨ffr, ffrlen, Kind.eac3⟩ =
      eac3_rewrite_crc2_like_c
        (if (eac3_parse_positions ffr).strmtype = 1 then
          setbits (setbits (setbits ffr (eac3_parse_positions ffr).compre_pos 1 1)
            (eac3_parse_positions ffr).compr_pos 8 0xFF) pos 16 DEFAULT_CHANMAP
        else
          setbits (setbits ffr (eac3_parse_positions ffr).compre_pos 1 1)
            (eac3_parse_positions ffr).compr_pos 8 0xFF) ffrlen := rfl

theorem patchFrame_length (pos : Nat) (f : Fr) :
    (patchFrame pos f).length = f.fr.length := by
  obtain ⟨ffr, ffrlen, fkind⟩ := f
  cases fkind with
  | ac3 => rfl
  | eac3 =>
      rw [patchFrame_eac3, eac3_rewrite_length]
      dsimp only
      split
      · rw [setbits_length, setbits_length, setbits_length]
      · rw [setbits_length, setbits_length]

/-- The patch changes no byte among the first six (the header bytes that
drive framing and classification): all written bit regions start at bit 50
or later (the chanmap position is always ≥ 52) and the checksum bytes sit
at index `frlen − 2 ≥ 8`. -/
theorem patchFrame_getD_low {pos : Nat} {f : Fr} {i : Nat} (hi : i < 6)
    (hpos : 52 ≤ pos) (h10 : 10 ≤ f.frlen) :
    (patchFrame pos f).getD i 0 = f.fr.getD i 0 := by
  obtain ⟨ffr, ffrlen, fkind⟩ := f
  dsimp only at h10 ⊢
  cases fkind with
  | ac3 => rfl
  | eac3 =>
      rw [patchFrame_eac3, getD_rewrite_low (show i < ffrlen - 2 by omega)]
      rw [eac3_parse_positions_eq]
      dsimp only
      split
      · rw [getD_setbits_low (by omega), getD_setbits_low (by omega),
          getD_setbits_low (by omega)]
      · rw [getD_setbits_low (by omega), getD_setbits_low (by omega)]

/-- Bits outside the targeted fields and the trailing checksum are
untouched by the per-frame patch. -/
theorem patchFrame_getbit_outside {pos : Nat} {f : Fr} (hk : f.kind = .eac3) {b : Nat}
    (h1 : b ≠ (eac3_parse_positions f.fr).compre_pos)
    (h2 : ¬((eac3_parse_positions f.fr).compr_pos ≤ b ∧
      b < (eac3_parse_positions f.fr).compr_pos + 8))
    (h3 : ¬((eac3_parse_positions f.fr).strmtype = 1 ∧ pos ≤ b ∧ b < pos + 16))
    (h4 : b < 8 * (f.frlen - 2)) :
    getbit (patchFrame pos f) b = getbit f.fr b := by
  obtain ⟨ffr, ffrlen, fkind⟩ := f
  dsimp only at hk h1 h2 h3 h4 ⊢
  subst hk
  rw [patchFrame_eac3, getbit_rewrite_low h4]
  rw [eac3_parse_positions_eq] at h1 h2 h3 ⊢
  dsimp only at h1 h2 h3 ⊢
  split
  · rename_i hstrm
    rw [getbit_setbits_outside (by omega) _,
      getbit_setbits_outside (by omega) _, getbit_setbits_outside (by omega) _]
  · rw [getbit_setbits_outside (by omega) _, getbit_setbits_outside (by omega) _]

theorem statsOf_chanmap (pos : Nat) : ∀ frs, (statsOf pos frs).chanmap_pos = pos := by
  intro frs
  induction frs with
  | nil => rfl
  | cons f frs ih =>
      show (match f.kind with
        | Kind.ac3 => { statsOf pos frs with
            total := (statsOf pos frs).total + 1, ac3 := (statsOf pos frs).ac3 + 1 }
        | Kind.eac3 => { statsOf pos frs with
            total := (statsOf pos frs).total + 1, eac3 := (statsOf pos frs).eac3 + 1,
            patched := (statsOf pos frs).patched + 1 }).chanmap_pos = pos
      cases f.kind <;> simpa using ih

theorem patchPass_elim {pos : Nat} {s out : List Nat} {st : Stats}
    (h : patchPass pos s = .ok (out, st)) :
    ∃ frs, parseFrames s = .ok frs ∧
      out = (frs.map (patchFrame pos)).flatten ∧ st = statsOf pos frs := by
  unfold patchPass at h
  cases hp : parseFrames s with
  | error e => rw [hp] at h; cases h
  | ok frs =>
      rw [hp] at h
      simp only [Except.ok.injEq, Prod.mk.injEq] at h
      exact ⟨frs, rfl, h.1.symm, h.2.symm⟩

theorem patch_file_elim {s out : List Nat} {st : Stats}
    (h : patch_file s = .ok (out, st)) :
    ∃ samples pos, collectSamples s = .ok samples ∧
      find_chanmap_bitpos samples 2048 = some pos ∧
      patchPass pos s = .ok (out, st) ∧ st.chanmap_pos = pos := by
  unfold patch_file at h
  cases hc : collectSamples s with
  | error e => rw [hc] at h; cases h
  | ok samples =>
      rw [hc] at h
      dsimp only at h
      cases hf : find_chanmap_bitpos samples 2048 with
      | none => rw [hf] at h; cases h
      | some pos =>
          rw [hf] at h
          obtain ⟨frs, -, -, hst⟩ := patchPass_elim h
          exact ⟨samples, pos, rfl, hf, h, by rw [hst, statsOf_chanmap]⟩

/-! ### Claim C2 — the patch pass touches only the targeted fields -/

/-- C2: whenever the patch pass completes, the output is the concatenation,
in order, of the per-frame outputs (frame count, order and per-frame byte
lengths preserved); AC-3 frames pass through byte-identical; an E-AC-3
frame differs from its input only in the compression-exists flag bit, the
8 compression-value bits, the 16 chanmap bits (dependent substreams only),
and the trailing 2-byte checksum. -/
theorem c2_patch_only_targeted_fields (input out : List Nat) (st : Stats)
    (h : patch_file input = .ok (out, st)) :
    ∃ frs : List Fr, parseFrames input = .ok frs ∧
      input = (frs.map Fr.fr).flatten ∧
      out = (frs.map (patchFrame st.chanmap_pos)).flatten ∧
      ∀ f ∈ frs,
        (patchFrame st.chanmap_pos f).length = f.fr.length ∧
        (f.kind = .ac3 → patchFrame st.chanmap_pos f = f.fr) ∧
        (f.kind = .eac3 → ∀ b,
          b ≠ (eac3_parse_positions f.fr).compre_pos →
          ¬((eac3_parse_positions f.fr).compr_pos ≤ b ∧
            b < (eac3_parse_positions f.fr).compr_pos + 8) →
          ¬((eac3_parse_positions f.fr).strmtype = 1 ∧
            st.chanmap_pos ≤ b ∧ b < st.chanmap_pos + 16) →
          b < 8 * (f.frlen - 2) →
          getbit (patchFrame st.chanmap_pos f) b = getbit f.fr b) := by
  obtain ⟨samples, pos, hc, hf, hpp, hcp⟩ := patch_file_elim h
  obtain ⟨frs, hparse, hout, -⟩ := patchPass_elim hpp
  refine ⟨frs, hparse, parseFrames_join hparse, by rw [hcp, hout], ?_⟩
  intro f hmem
  refine ⟨patchFrame_length _ f, ?_, ?_⟩
  · intro hk
    obtain ⟨ffr, ffrlen, fkind⟩ := f
    cases hk
    rfl
  · intro hk b h1 h2 h3 h4
    exact patchFrame_getbit_outside hk h1 h2 h3 h4

set_option maxRecDepth 100000 in
theorem c2_patch_only_targeted_fields_witness :
    patch_file frameI5 = .ok (outI5, ⟨1, 0, 1, 1, 52⟩) ∧
    (∃ frs : List Fr, parseFrames frameI5 = .ok frs ∧
      frameI5 = (frs.map Fr.fr).flatten ∧
      outI5 = (frs.map (patchFrame (Stats.mk 1 0 1 1 52).chanmap_pos)).flatten ∧
      ∀ f ∈ frs,
        (patchFrame (Stats.mk 1 0 1 1 52).chanmap_pos f).length = f.fr.length ∧
        (f.kind = .ac3 → patchFrame (Stats.mk 1 0 1 1 52).chanmap_pos f = f.fr) ∧
        (f.kind = .eac3 → ∀ b,
          b ≠ (eac3_parse_positions f.fr).compre_pos →
          ¬((eac3_parse_positions f.fr).compr_pos ≤ b ∧
            b < (eac3_parse_positions f.fr).compr_pos + 8) →
          ¬((eac3_parse_positions f.fr).strmtype = 1 ∧
            (Stats.mk 1 0 1 1 52).chanmap_pos ≤ b ∧
            b < (Stats.mk 1 0 1 1 52).chanmap_pos + 16) →
          b < 8 * (f.frlen - 2) →
          getbit (patchFrame (Stats.mk 1 0 1 1 52).chanmap_pos f) b = getbit f.fr b)) :=
  ⟨by decide, c2_patch_only_targeted_fields frameI5 outI5 ⟨1, 0, 1, 1, 52⟩ (by decide)⟩

/-! ### Claim C5 — running the operation twice (corrected) -/

/-- Patching preserves frame well-formedness: header bytes 0-5 and the
length are untouched, so the patched frame re-reads with the same kind and
length. -/
theorem FrWF_patched {pos : Nat} {f : Fr} (hwf : FrWF f) (hpos : 52 ≤ pos) :
    FrWF ⟨patchFrame pos f, f.frlen, f.kind⟩ := by
  obtain ⟨ffr, ffrlen, fkind⟩ := f
  obtain ⟨hlen, h10, h0, h1, hac3, heac3⟩ := hwf
  dsimp only at hlen h10 h0 h1 hac3 heac3
  have hgd : ∀ i, i < 6 →
      (patchFrame pos ⟨ffr, ffrlen, fkind⟩).getD i 0 = ffr.getD i 0 :=
    fun i hi => patchFrame_getD_low hi hpos h10
  unfold FrWF
  dsimp only
  refine ⟨?_, h10, ?_, ?_, ?_, ?_⟩
  · rw [patchFrame_length]
    exact hlen
  · rw [hgd 0 (by norm_num)]
    exact h0
  · rw [hgd 1 (by norm_num)]
    exact h1
  · intro hk
    rw [hgd 5 (by norm_num), hgd 4 (by norm_num)]
    exact hac3 hk
  · intro hk
    rw [hgd 5 (by norm_num), hgd 2 (by norm_num), hgd 3 (by norm_num)]
    exact heac3 hk

/-- Re-reading a patched stream recovers the patched frames, with the
original kinds and lengths. -/
theorem parseFrames_patched {pos : Nat} (hpos : 52 ≤ pos) :
    ∀ (frs : List Fr) (s : List Nat), parseFrames s = .ok frs →
      parseFrames ((frs.map (patchFrame pos)).flatten) =
        .ok (frs.map (fun f => ⟨patchFrame pos f, f.frlen, f.kind⟩)) := by
  intro frs
  induction frs with
  | nil =>
      intro s _
      exact parseFrames_nil
  | cons f frs ih =>
      intro s h
      rcases parseFrames_elim h with ⟨-, hx⟩ | ⟨f', rest, frs', hx, hr, hp⟩
      · cases hx
      · have hf' : f' = f := by
          injection hx with hx1 hx2
          exact hx1.symm
        have hfrs' : frs' = frs := by
          injection hx with hx1 hx2
          exact hx2.symm
        rw [hf'] at hr
        rw [hfrs'] at hp
        have hwf := (readFrame_some hr).2.2.2.2
        have hstep : readFrame (patchFrame pos f ++ (frs.map (patchFrame pos)).flatten) =
            .ok (some (⟨patchFrame pos f, f.frlen, f.kind⟩,
              (frs.map (patchFrame pos)).flatten)) :=
          readFrame_of_wf _ _ (FrWF_patched hwf hpos)
        have hrec := parseFrames_cons_of hstep (ih rest hp)
        simpa using hrec

/-- The counters depend only on the kinds of the parsed frames, which a
kind-preserving map leaves unchanged. -/
theorem statsOf_map_kinds (pos1 pos2 : Nat) (g : Fr → Fr) (hg : ∀ f, (g f).kind = f.kind) :
    ∀ frs, (statsOf pos2 (frs.map g)).total = (statsOf pos1 frs).total ∧
      (statsOf pos2 (frs.map g)).ac3 = (statsOf pos1 frs).ac3 ∧
      (statsOf pos2 (frs.map g)).eac3 = (statsOf pos1 frs).eac3 ∧
      (statsOf pos2 (frs.map g)).patched = (statsOf pos1 frs).patched := by
  intro frs
  induction frs with
  | nil => exact ⟨rfl, rfl, rfl, rfl⟩
  | cons f frs ih =>
      obtain ⟨ht, ha, he, hp⟩ := ih
      cases hk : f.kind <;>
        simp only [List.map_cons, statsOf, hg f, hk] <;>
        exact ⟨by omega, by omega, by omega, by omega⟩

/-- C5 (amended): a second full run on the first run's output completes
with the same `patched_eac3_count` (and the same total/AC-3/E-AC-3
counts) — but the accompanying counterexample shows it may detect a different chanmap
offset, so the forced fields and the channel-map value need not sit at the
positions the first run used. -/
theorem c5_second_run_counts (input out1 out2 : List Nat) (st1 st2 : Stats)
    (h1 : patch_file input = .ok (out1, st1))
    (h2 : patch_file out1 = .ok (out2, st2)) :
    st2.patched = st1.patched ∧ st2.total = st1.total ∧
    st2.ac3 = st1.ac3 ∧ st2.eac3 = st1.eac3 := by
  obtain ⟨samples1, pos1, -, hf1, hpp1, hcp1⟩ := patch_file_elim h1
  obtain ⟨frs1, hparse1, hout1, hst1⟩ := patchPass_elim hpp1
  have hpos1 : 52 ≤ pos1 := find_chanmap_ge hf1
  obtain ⟨samples2, pos2, -, hf2, hpp2, hcp2⟩ := patch_file_elim h2
  obtain ⟨frs2, hparse2, hout2, hst2⟩ := patchPass_elim hpp2
  have hpatched := parseFrames_patched hpos1 frs1 input hparse1
  rw [← hout1] at hpatched
  have hfrs2 : frs2 = frs1.map (fun f => ⟨patchFrame pos1 f, f.frlen, f.kind⟩) := by
    have := hparse2.symm.trans hpatched
    simpa using this
  have hk := statsOf_map_kinds pos1 pos2
    (fun f => ⟨patchFrame pos1 f, f.frlen, f.kind⟩) (fun f => rfl) frs1
  rw [hst1, hst2, hfrs2]
  exact ⟨hk.2.2.2, hk.1, hk.2.1, hk.2.2.1⟩

set_option maxRecDepth 100000 in
/-- C5 (counterexample): on the single-frame input `frameI5` the first run
detects offset 52 and writes 0x1A00 there; the second run (on the first
run's output) detects offset 73, and its output no longer carries 0x1A00
at offset 52 — the claimed equality of the channel-map field at the same
positions fails. -/
theorem c5_cex :
    patch_file frameI5 = .ok (outI5, ⟨1, 0, 1, 1, 52⟩) ∧
    patch_file outI5 = .ok (outI5', ⟨1, 0, 1, 1, 73⟩) ∧
    (Stats.mk 1 0 1 1 73).chanmap_pos ≠ (Stats.mk 1 0 1 1 52).chanmap_pos ∧
    getbits outI5 52 16 = 0x1A00 ∧ getbits outI5' 52 16 ≠ 0x1A00 :=
  ⟨by decide, by decide, by decide, by decide, by decide⟩

set_option maxRecDepth 100000 in
theorem c5_second_run_counts_witness :
    patch_file frameI5 = .ok (outI5, ⟨1, 0, 1, 1, 52⟩) ∧
    patch_file outI5 = .ok (outI5', ⟨1, 0, 1, 1, 73⟩) ∧
    ((Stats.mk 1 0 1 1 73).patched = (Stats.mk 1 0 1 1 52).patched ∧
      (Stats.mk 1 0 1 1 73).total = (Stats.mk 1 0 1 1 52).total ∧
      (Stats.mk 1 0 1 1 73).ac3 = (Stats.mk 1 0 1 1 52).ac3 ∧
      (Stats.mk 1 0 1 1 73).eac3 = (Stats.mk 1 0 1 1 52).eac3) :=
  ⟨by decide, by decide,
    c5_second_run_counts frameI5 outI5 outI5' ⟨1, 0, 1, 1, 52⟩ ⟨1, 0, 1, 1, 73⟩
      (by decide) (by decide)⟩

set_option maxRecDepth 4000 in
theorem c4_frmsizecod_lookup_witness :
    (0 : Nat) < 250 ∧ (∃ e, fsizetable.get? 0 = some e ∧ (e = 0 ∨ 128 ≤ e * 2)) :=
  ⟨by decide, c4_frmsizecod_lookup.2 0 (by decide)⟩
